import Mathlib

/-!
Verification development for the Rex version-control system (src/main.py).

The program is shallowly embedded: Python byte strings become `List Nat`
(one entry per byte), Python text strings become `List Char` (one entry per
code point; the program only ever builds ASCII text, for which this agrees
with Python's UTF-8 encode/decode), fallible code returns `Option`, and the
filesystem state touched by the program (the `.rex` object store, the text
files under `.rex`, the index, and the working directory) is threaded
explicitly through every operation as a `Repository` value.

External libraries used by the program are not code of this repository:
`zlib` is modelled by its lossless contract (decompression inverts
compression; the identity transform realises that contract at byte level),
while `hashlib.sha1` is modelled by an actual implementation of SHA-1.
-/

namespace Rex

/-- Python text strings are modelled as lists of characters. -/
abbrev Str := List Char

/-- Shorthand turning a Lean string literal into the `Str` model. -/
def S (s : String) : Str := s.data

/-- Python `str.encode()`: one byte per code point (exact for the ASCII
text the program produces). -/
def strBytes (s : Str) : List Nat := s.map Char.toNat

/-- Python `bytes.decode()`: one code point per byte (exact for ASCII). -/
def bytesStr (b : List Nat) : Str := b.map Char.ofNat

/-- Python `str.strip()`: remove leading and trailing whitespace. -/
def pyStrip (s : Str) : Str :=
  ((s.dropWhile Char.isWhitespace).reverse.dropWhile Char.isWhitespace).reverse

/-- One step of whitespace splitting: a whitespace character opens a new
(empty) field, any other character extends the current head field. -/
def wordsF (c : Char) (acc : List Str) : List Str :=
  if c.isWhitespace then [] :: acc
  else
    match acc with
    | [] => [[c]]
    | w :: rest => (c :: w) :: rest

/-- Python `str.split()` with no argument: split on runs of whitespace,
dropping empty fields. -/
def pyWords (s : Str) : List Str :=
  (s.foldr wordsF []).filter (fun w => w ≠ [])

/-- Python `str.splitlines()` for newline-separated text: split on each
newline, without a trailing empty line. -/
def pySplitlines (s : Str) : List Str :=
  let p := s.splitOn '\n'
  if p.getLast? = some [] then p.dropLast else p

/-- Python `bytes.split(sep)` for a one-byte separator: split at every
occurrence, keeping empty fields. -/
def splitAllOn (sep : Nat) : List Nat → List (List Nat)
  | [] => [[]]
  | b :: r =>
    if b = sep then [] :: splitAllOn sep r
    else
      match splitAllOn sep r with
      | w :: ws => (b :: w) :: ws
      | [] => [[b]]

/-- Python `bytes.find(b)` followed by the slice before/after the first
occurrence; `none` when the byte does not occur. -/
def splitAtFirst (sep : Nat) : List Nat → Option (List Nat × List Nat)
  | [] => none
  | b :: r =>
    if b = sep then some ([], r)
    else (splitAtFirst sep r).map (fun p => (b :: p.1, p.2))

/-- Decimal digits worker with a structural fuel argument (each step
divides by 10, so `n + 1` fuel always suffices). -/
def natStrAux : Nat → Nat → Str
  | 0, _ => []
  | fuel + 1, n =>
    if n < 10 then [Char.ofNat (48 + n)]
    else natStrAux fuel (n / 10) ++ [Char.ofNat (48 + n % 10)]

/-- Decimal rendering of a natural number, modelling Python's `str(n)` /
f-string formatting of an `int`. -/
def natStr (n : Nat) : Str := natStrAux (n + 1) n

/-- Lower-case hex digit for a value below 16 (`0`-`9`, `a`-`f`). -/
def hexDigitChar (n : Nat) : Char :=
  if n < 10 then Char.ofNat (48 + n) else Char.ofNat (87 + n)

/-- Python `bytes.hex()`: two lower-case hex digits per byte. -/
def bytesHex (b : List Nat) : Str :=
  b.foldr (fun x acc => hexDigitChar (x / 16) :: hexDigitChar (x % 16) :: acc) []

/-- Numeric value of a hex digit character. -/
def hexVal (c : Char) : Nat :=
  if 48 ≤ c.toNat ∧ c.toNat ≤ 57 then c.toNat - 48
  else if 97 ≤ c.toNat ∧ c.toNat ≤ 102 then c.toNat - 87
  else if 65 ≤ c.toNat ∧ c.toNat ≤ 70 then c.toNat - 55
  else 0

/-- Python `bytes.fromhex()` on the even-length hex strings the program
produces: consecutive digit pairs become bytes. -/
def hexDecodeBytes : Str → List Nat
  | c1 :: c2 :: r => (hexVal c1 * 16 + hexVal c2) :: hexDecodeBytes r
  | _ => []

/-! ### SHA-1 (model of the external `hashlib.sha1`) -/

/-- Truncation to a 32-bit word. -/
def w32 (n : Nat) : Nat := n % 4294967296

/-- Left rotation of a 32-bit word by `k` bits. -/
def rotl (k n : Nat) : Nat := w32 (n * 2 ^ k) + n / 2 ^ (32 - k)

/-- Big-endian bytes (`k` of them) of a natural number. -/
def beBytes : Nat → Nat → List Nat
  | 0, _ => []
  | k + 1, n => beBytes k (n / 256) ++ [n % 256]

/-- Big-endian 32-bit words from a byte list. -/
def beWords : List Nat → List Nat
  | b0 :: b1 :: b2 :: b3 :: r => (((b0 * 256 + b1) * 256 + b2) * 256 + b3) :: beWords r
  | _ => []

/-- Message-schedule extension: append `fuel` further words, each the
one-bit left rotation of the xor of the words 3, 8, 14 and 16 back. -/
def sha1Extend (w : List Nat) : Nat → List Nat
  | 0 => w
  | fuel + 1 =>
    let n := w.length
    let x := rotl 1 (Nat.xor (Nat.xor (w.getD (n - 3) 0) (w.getD (n - 8) 0))
      (Nat.xor (w.getD (n - 14) 0) (w.getD (n - 16) 0)))
    sha1Extend (w ++ [x]) fuel

/-- One SHA-1 round: the state is `(i, a, b, c, d, e)` with `i` the round
index. -/
def sha1Round (st : Nat × Nat × Nat × Nat × Nat × Nat) (wi : Nat) :
    Nat × Nat × Nat × Nat × Nat × Nat :=
  match st with
  | (i, a, b, c, d, e) =>
    let f :=
      if i < 20 then Nat.lor (Nat.land b c) (Nat.land (Nat.xor 4294967295 b) d)
      else if i < 40 then Nat.xor (Nat.xor b c) d
      else if i < 60 then Nat.lor (Nat.lor (Nat.land b c) (Nat.land b d)) (Nat.land c d)
      else Nat.xor (Nat.xor b c) d
    let k :=
      if i < 20 then 1518500249
      else if i < 40 then 1859775393
      else if i < 60 then 2400959708
      else 3395469782
    let temp := w32 (rotl 5 a + f + e + k + wi)
    (i + 1, temp, a, rotl 30 b, c, d)

/-- Process one 64-byte chunk. -/
def sha1Compress (h : Nat × Nat × Nat × Nat × Nat) (chunk : List Nat) :
    Nat × Nat × Nat × Nat × Nat :=
  match h with
  | (h0, h1, h2, h3, h4) =>
    let w := sha1Extend (beWords chunk) 64
    match w.foldl sha1Round (0, h0, h1, h2, h3, h4) with
    | (_, a, b, c, d, e) =>
      (w32 (h0 + a), w32 (h1 + b), w32 (h2 + c), w32 (h3 + d), w32 (h4 + e))

/-- Chunking worker with a structural fuel argument. -/
def chunksAux : Nat → List Nat → List (List Nat)
  | 0, _ => []
  | _, [] => []
  | fuel + 1, b :: r => ((b :: r).take 64) :: chunksAux fuel ((b :: r).drop 64)

/-- Split a padded message into 64-byte chunks. -/
def chunks64 (l : List Nat) : List (List Nat) := chunksAux (l.length + 1) l

/-- SHA-1 padding: a `0x80` byte, zeros to 56 mod 64, then the 64-bit
big-endian bit length. -/
def sha1Pad (msg : List Nat) : List Nat :=
  msg ++ [128] ++ List.replicate ((119 - msg.length % 64) % 64) 0 ++ beBytes 8 (msg.length * 8)

/-- The 20-byte SHA-1 digest of a byte string. -/
def sha1Bytes (msg : List Nat) : List Nat :=
  match (chunks64 (sha1Pad msg)).foldl sha1Compress
      (1732584193, 4023233417, 2562383102, 271733878, 3285377520) with
  | (h0, h1, h2, h3, h4) =>
    beBytes 4 h0 ++ beBytes 4 h1 ++ beBytes 4 h2 ++ beBytes 4 h3 ++ beBytes 4 h4

/-- `hashlib.sha1(data).hexdigest()`: the 40-character hex digest. -/
def sha1Hex (msg : List Nat) : Str := bytesHex (sha1Bytes msg)

/-! ### Object codec (class `GitObject` and subclasses) -/

/-- The external `zlib.compress`, modelled by its lossless contract: the
byte-level identity (what matters to the program is that decompression
inverts compression). -/
def zlibCompress (data : List Nat) : List Nat := data

/-- The external `zlib.decompress`, inverse of `zlibCompress`. -/
def zlibDecompress (data : List Nat) : List Nat := data

/-- A constructed object: a `kind` tag (`self.type` in the source) and a
byte payload. -/
structure GitObject where
  type : Str
  content : List Nat
deriving DecidableEq

/-- The canonical header `"<kind> <len(content)>\0"` as bytes. -/
def headerBytes (kind : Str) (len : Nat) : List Nat :=
  strBytes (kind ++ S " " ++ natStr len) ++ [0]

/-- `GitObject.hash`: SHA-1 hex digest of header plus content. -/
def GitObject.hash (o : GitObject) : Str :=
  sha1Hex (headerBytes o.type o.content.length ++ o.content)

/-- `GitObject.serialize`: compressed header plus content. -/
def GitObject.serialize (o : GitObject) : List Nat :=
  zlibCompress (headerBytes o.type o.content.length ++ o.content)

/-- A tree entry `(mode, name, obj_hash)`. -/
abbrev TreeEntry := Str × Str × Str

/-- Stable insertion into a sorted list: the new element goes after every
element it does not strictly precede, giving the stability of Python's
sort. -/
def pyInsort {α : Type} (le : α → α → Bool) (x : α) : List α → List α
  | [] => [x]
  | y :: r => if le x y && !(le y x) then x :: y :: r else y :: pyInsort le x r

/-- Python's stable `sorted`. -/
def pySorted {α : Type} (le : α → α → Bool) (l : List α) : List α :=
  l.foldl (fun acc x => pyInsort le x acc) []

/-- `Tree._serialize_entries`: entries sorted by name (Python's stable
sort), each encoded as `"<mode> <name>\0"` plus the raw 20-byte hash. -/
def treeSerializeEntries (entries : List TreeEntry) : List Nat :=
  (pySorted (fun a b => decide (a.2.1 ≤ b.2.1)) entries).foldl
    (fun acc e => acc ++ strBytes (e.1 ++ S " " ++ e.2.1) ++ [0] ++ hexDecodeBytes e.2.2) []

/-- The `Tree` object with its mutable entry list and the derived
`content` attribute kept alongside it. -/
structure Tree where
  entries : List TreeEntry
  content : List Nat
deriving DecidableEq

/-- `Tree.__init__`: store the entries and compute the serialized form. -/
def Tree.init (entries : List TreeEntry) : Tree :=
  { entries := entries, content := treeSerializeEntries entries }

/-- `Tree.add_entry`: append the entry and recompute `self.content`. -/
def Tree.add_entry (t : Tree) (mode name objHash : Str) : Tree :=
  let es := t.entries ++ [(mode, name, objHash)]
  { entries := es, content := treeSerializeEntries es }

/-- `GitObject.hash` as inherited by `Tree` (computed from `self.content`). -/
def Tree.hash (t : Tree) : Str := GitObject.hash ⟨S "tree", t.content⟩

/-- The stored object a finalized `Tree` becomes. -/
def treeObj (entries : List TreeEntry) : GitObject :=
  ⟨S "tree", treeSerializeEntries entries⟩

/-- `Tree.from_content` scan loop, with a structural fuel argument (each
entry consumes at least 21 bytes, so `length + 1` fuel always suffices):
find the next NUL, split the prefix at its first space into mode and name
(raising when there is none), read the next (up to) 20 bytes as the hex
hash, continue past them. -/
def treeParseAux : Nat → List Nat → Option (List TreeEntry)
  | 0, _ => none
  | _, [] => some []
  | fuel + 1, b :: r =>
    match splitAtFirst 0 (b :: r) with
    | none => some []
    | some (modeName, rest) =>
      match splitAtFirst 32 modeName with
      | none => none
      | some (mode, name) =>
        let objHash := bytesHex (rest.take 20)
        (treeParseAux fuel (rest.drop 20)).map
          (fun es => (bytesStr mode, bytesStr name, objHash) :: es)

/-- `Tree.from_content`: parse the serialized entry encoding. -/
def treeParseEntries (content : List Nat) : Option (List TreeEntry) :=
  treeParseAux (content.length + 1) content

/-- The deserialized, type-dispatched object (the `Blob` / `Tree` /
`Commit` / generic `GitObject` result of `GitObject.deserialize`). -/
inductive DObj where
  | blob (content : List Nat)
  | tree (entries : List TreeEntry) (content : List Nat)
  | commit (content : List Nat)
  | other (kind : Str) (content : List Nat)
deriving DecidableEq

/-- The `kind` of a deserialized object. -/
def DObj.kind : DObj → Str
  | .blob _ => S "blob"
  | .tree _ _ => S "tree"
  | .commit _ => S "commit"
  | .other k _ => k

/-- The `content` attribute of a deserialized object (for a `Tree` this is
the re-serialization of the parsed entries, as in `Tree.__init__`). -/
def DObj.content : DObj → List Nat
  | .blob c => c
  | .tree _ c => c
  | .commit c => c
  | .other _ c => c

/-- `GitObject.deserialize`: decompress, split at the first NUL, split the
header at spaces into exactly two fields, and dispatch on the type tag. -/
def gitDeserialize (data : List Nat) : Option DObj :=
  let decompressed := zlibDecompress data
  match splitAtFirst 0 decompressed with
  | none => none
  | some (header, content) =>
    match splitAllOn 32 header with
    | [t, _] =>
      let kind := bytesStr t
      if kind = S "blob" then some (.blob content)
      else if kind = S "tree" then
        (treeParseEntries content).map (fun es => .tree es (treeSerializeEntries es))
      else if kind = S "commit" then some (.commit content)
      else some (.other kind content)
    | _ => none


/-! ### Commit parsing (`Commit.parse`) -/

/-- The dictionary `Commit.parse` builds: optional `tree`, `parent` and
`author` fields plus the accumulated message. -/
structure ParsedCommit where
  tree : Option Str := none
  parent : Option Str := none
  author : Option Str := none
  message : Str := []
deriving DecidableEq

/-- One line of `Commit.parse`: the state is the record so far plus the
`in_msg` flag; `none` models the `IndexError` raised by `line.split()[1]`
when a `tree `/`parent ` line has no second token. -/
def parseLine (st : ParsedCommit × Bool) (line : Str) : Option (ParsedCommit × Bool) :=
  let (res, inMsg) := st
  if inMsg then some ({ res with message := res.message ++ line ++ [Char.ofNat 10] }, true)
  else if (S "tree ").isPrefixOf line then
    match (pyWords line).get? 1 with
    | some tok => some ({ res with tree := some tok }, inMsg)
    | none => none
  else if (S "parent ").isPrefixOf line then
    match (pyWords line).get? 1 with
    | some tok => some ({ res with parent := some tok }, inMsg)
    | none => none
  else if (S "author ").isPrefixOf line then
    some ({ res with author := some (line.drop 7) }, inMsg)
  else if line = [] then some (res, true)
  else some (res, inMsg)

/-- `Commit.parse`: decode, split into lines, fold `parseLine`, and strip
the accumulated message. -/
def commitParse (content : List Nat) : Option ParsedCommit := do
  let (res, _) ← (pySplitlines (bytesStr content)).foldlM parseLine ({}, false)
  pure { res with message := pyStrip res.message }

/-! ### Repository state and object store -/

/-- A branch-qualified or plain error raised by an operation (Python
exception kinds flattened to what the claims distinguish). -/
inductive RexErr where
  | unknownTarget
  | readFailed
  | noTreeInCommit
  | notATree
  | fuelExhausted
  | pathNotFound
deriving DecidableEq

/-- The filesystem state the program touches. `objects` holds the sharded
object files (key: 2-character directory name and remaining file name),
`files` the text files under `.rex` keyed by their `.rex`-relative path
(`HEAD`, `refs/heads/<branch>`), `index` the staged path-to-hash mapping
(the JSON persistence layer is external; `none` models a missing index
file), and `workdir` the user files as segment-path-to-bytes entries
(directories exist implicitly; `.rex` is kept out of `workdir` by
construction). -/
structure Repository where
  objects : List ((Str × Str) × List Nat) := []
  files : List (Str × Str) := []
  index : Option (List (Str × Str)) := none
  workdir : List (List Str × List Nat) := []
deriving DecidableEq

/-- Association-list lookup (first match wins, as for a filesystem path or
Python dict). -/
def lookupA {κ ν : Type} [DecidableEq κ] : List (κ × ν) → κ → Option ν
  | [], _ => none
  | (k, v) :: r, key => if k = key then some v else lookupA r key

/-- Association-list upsert: replace in place when the key exists
(Python-dict / file-overwrite semantics), append otherwise. -/
def assocSet {κ ν : Type} [DecidableEq κ] : List (κ × ν) → κ → ν → List (κ × ν)
  | [], key, v => [(key, v)]
  | (k, w) :: r, key, v =>
    if k = key then (k, v) :: r else (k, w) :: assocSet r key v

/-- `Repository._object_path`: shard a hash into a 2-character directory
and the remaining file name. -/
def objectPath (h : Str) : Str × Str := (h.take 2, h.drop 2)

/-- `Repository.store_object`: compute the hash; write the serialized
bytes only when no file exists at the derived path; return the hash either
way. -/
def store_object (objs : List ((Str × Str) × List Nat)) (o : GitObject) :
    List ((Str × Str) × List Nat) × Str :=
  let h := o.hash
  match lookupA objs (objectPath h) with
  | some _ => (objs, h)
  | none => ((objectPath h, o.serialize) :: objs, h)

/-- `Repository.read_object`: read the file at the derived path and
deserialize it; `none` covers both a missing file and a codec failure. -/
def read_object (objs : List ((Str × Str) × List Nat)) (h : Str) : Option DObj :=
  (lookupA objs (objectPath h)).bind gitDeserialize

/-- `Repository.load_index`: a missing (or unparsable) index file is an
empty mapping. -/
def load_index (r : Repository) : List (Str × Str) := r.index.getD []

/-- `Repository._is_hash`: at least 6 characters, all lower-casing to hex
digits. -/
def isHash (s : Str) : Bool :=
  decide (6 ≤ s.length) && (s.map Char.toLower).all (fun c => (S "0123456789abcdef").contains c)

/-- `Repository._read_head_ref`: `(symbolic ref path, current commit)`;
a symbolic HEAD dereferences the branch file when it exists. -/
def read_head_ref (r : Repository) : Option Str × Option Str :=
  match lookupA r.files (S "HEAD") with
  | none => (none, none)
  | some t0 =>
    let text := pyStrip t0
    if (S "ref: ").isPrefixOf text then
      let ref := text.drop 5
      match lookupA r.files ref with
      | some c => (some ref, some (pyStrip c))
      | none => (some ref, none)
    else (none, some text)

/-! ### Tree builder (`Repository.create_tree_from_index`) -/

/-- A node of the intermediate nested mapping: a staged blob hash or a
nested directory mapping. -/
inductive Node where
  | blob (h : Str)
  | dir (children : List (Str × Node))

/-- Path splitting `path.split("/")`. -/
def pathSegs (p : Str) : List Str := p.splitOn '/'

/-- Insert one `path -> hash` staging into the nested mapping
(`setdefault` semantics); `none` models the `TypeError` raised when an
intermediate segment is already staged as a blob. -/
def insertPath : List (Str × Node) → List Str → Str → Option (List (Str × Node))
  | m, [], _ => some m
  | m, [p], h => some (assocSet m p (Node.blob h))
  | m, p :: rest, h =>
    match lookupA m p with
    | some (Node.dir sub) =>
      (insertPath sub rest h).map (fun sub2 => assocSet m p (Node.dir sub2))
    | some (Node.blob _) => none
    | none =>
      (insertPath [] rest h).map (fun sub2 => assocSet m p (Node.dir sub2))

/-- Build the whole nested mapping from the index, in staging order. -/
def buildNested (index : List (Str × Str)) : Option (List (Str × Node)) :=
  index.foldlM (fun m e => insertPath m (pathSegs e.1) e.2) []

/-- Fuel for the tree builder: the total number of staged path segments
bounds the nesting depth of the intermediate mapping. -/
def treeFuel (index : List (Str × Str)) : Nat :=
  index.foldl (fun acc e => acc + (pathSegs e.1).length) 1

/-- The recursive `build`: sort the direct children by name, emit a
`100644` entry per blob child and a `40000` entry per recursively built
and stored subtree, then store the tree built from the collected entries.
Returns the updated store and the tree hash. The structural fuel models
Python's recursion limit and is always ample via `treeFuel`. -/
def buildDir : Nat → List ((Str × Str) × List Nat) → List (Str × Node) →
    List ((Str × Str) × List Nat) × Str
  | 0, s, _ => (s, [])
  | fuel + 1, s, children =>
    let sorted := pySorted (fun a b => decide (a.1 ≤ b.1)) children
    let (s2, entries) := sorted.foldl
      (fun (st : List ((Str × Str) × List Nat) × List TreeEntry) c =>
        match c with
        | (name, Node.blob h) => (st.1, st.2 ++ [(S "100644", name, h)])
        | (name, Node.dir sub) =>
          let (s3, hsub) := buildDir fuel st.1 sub
          (s3, st.2 ++ [(S "40000", name, hsub)]))
      (s, [])
    store_object s2 (treeObj entries)

/-- `Repository.create_tree_from_index`: an empty index stores one empty
tree; otherwise build the nested mapping and recursively store it.
Returns the updated object store and the root tree hash, or `none` on the
staging conflict `TypeError`. -/
def create_tree_from_index (s : List ((Str × Str) × List Nat))
    (index : List (Str × Str)) : Option (List ((Str × Str) × List Nat) × Str) :=
  if index = [] then some (store_object s (treeObj []))
  else (buildNested index).map (fun root => buildDir (treeFuel index) s root)


/-! ### Commit logic (`Repository.commit`) -/

/-- The newline character. -/
def nl : Char := Char.ofNat 10

/-- The text lines of a commit record: tree line, parent line only for a
truthy parent, author/committer lines, a blank line, the message. -/
def mkCommitLines (treeHash : Str) (parent : Option Str) (authorLine message : Str) :
    List Str :=
  [S "tree " ++ treeHash] ++
    (match parent with
     | some p => if p = [] then [] else [S "parent " ++ p]
     | none => []) ++
    [S "author " ++ authorLine, S "committer " ++ authorLine, [], message]

/-- `Repository.commit`. The wall-clock reading `int(time.time())` and the
zone string `time.strftime("%z") or "+0000"` are external inputs, threaded
as the `now` and `tz` parameters. Returns the updated repository, the new
commit's hash, and the commit object's content bytes; `none` models the
`TypeError` escaping from `create_tree_from_index` on a conflicting
index. -/
def commit (r : Repository) (message author : Str) (now : Nat) (tz : Str) :
    Option (Repository × Str × List Nat) :=
  match create_tree_from_index r.objects (load_index r) with
  | none => none
  | some (objs1, treeHash) =>
    let (ref, parent) := read_head_ref r
    let authorLine := author ++ S " " ++ natStr now ++ S " " ++ tz
    let content := strBytes (List.intercalate [nl] (mkCommitLines treeHash parent authorLine message))
    let (objs2, commitHash) := store_object objs1 ⟨S "commit", content⟩
    let files2 :=
      match ref with
      | some ρ => assocSet r.files ρ (commitHash ++ [nl])
      | none => assocSet r.files (S "HEAD") (commitHash ++ [nl])
    some ({ r with objects := objs2, files := files2 }, commitHash, content)

/-! ### Checkout (`Repository.checkout` and `Repository._restore_tree`) -/

/-- The scan of `Repository._read_commit_tree`: the `split()[1]` token of
the first line starting with `tree `. -/
def firstTreeToken : List Str → Option Str
  | [] => none
  | l :: rest => if (S "tree ").isPrefixOf l then (pyWords l).get? 1 else firstTreeToken rest

/-- `Repository._read_commit_tree`: read the commit object and extract its
tree hash; `none` covers the read failure, the `IndexError` on a malformed
tree line, and the `ValueError` when no tree line exists. -/
def read_commit_tree (objs : List ((Str × Str) × List Nat)) (commitHash : Str) : Option Str :=
  match read_object objs commitHash with
  | none => none
  | some obj => firstTreeToken (pySplitlines (bytesStr obj.content))

/-- `Repository._restore_tree`: read the tree at `treeHash` and
materialize it under `base` into the working directory `w`. Each child
object is read before its mode is examined; mode `40000` recurses into the
subdirectory, any other mode writes the child's content at `base / name`.
An exception ends the loop, leaving the files written so far in place (the
paired error reports it). The structural fuel models Python's recursion
limit: a crafted store can make the recursion cyclic. -/
def restore_tree : Nat → List ((Str × Str) × List Nat) → Str → List Str →
    List (List Str × List Nat) → List (List Str × List Nat) × Option RexErr
  | 0, _, _, _, w => (w, some .fuelExhausted)
  | fuel + 1, objs, treeHash, base, w =>
    match read_object objs treeHash with
    | none => (w, some .readFailed)
    | some (DObj.tree entries _) =>
      entries.foldl
        (fun st e =>
          match st with
          | (w2, some err) => (w2, some err)
          | (w2, none) =>
            match read_object objs e.2.2 with
            | none => (w2, some .readFailed)
            | some child =>
              if e.1 = S "40000" then
                restore_tree fuel objs e.2.2 (base ++ pathSegs e.2.1) w2
              else
                (assocSet w2 (base ++ pathSegs e.2.1) child.content, none))
        (w, none)
    | some _ => (w, some .notATree)

/-- Specification-side reading of a stored tree: the `(path, content)`
files it records, in restoration order; `none` exactly when `restore_tree`
would fail. -/
def treeFilesT : Nat → List ((Str × Str) × List Nat) → Str → List Str →
    Option (List (List Str × List Nat))
  | 0, _, _, _ => none
  | fuel + 1, objs, treeHash, base =>
    match read_object objs treeHash with
    | none => none
    | some (DObj.tree entries _) =>
      entries.foldl
        (fun acc e =>
          match acc with
          | none => none
          | some fs =>
            match read_object objs e.2.2 with
            | none => none
            | some child =>
              if e.1 = S "40000" then
                (treeFilesT fuel objs e.2.2 (base ++ pathSegs e.2.1)).map (fun fs2 => fs ++ fs2)
              else
                some (fs ++ [(base ++ pathSegs e.2.1, child.content)]))
        (some [])
    | some _ => none

/-- The wipe-then-restore tail of `checkout` (paths 1 and 2): clean the
working directory except `.rex`, resolve the target commit's tree, and
materialize it at the repository root. -/
def checkout_restore (r : Repository) (target : Str) (fuel : Nat) :
    Repository × Option RexErr :=
  let r1 := { r with workdir := [] }
  match read_commit_tree r1.objects target with
  | none => (r1, some .noTreeInCommit)
  | some th =>
    match restore_tree fuel r1.objects th [] [] with
    | (w, none) => ({ r1 with workdir := w }, none)
    | (w, some e) => ({ r1 with workdir := w }, some e)

/-- `Repository.checkout`: existing branch, hash-looking literal, branch
creation (which returns before any wipe), or the `Unknown branch/commit`
error. -/
def checkout (r : Repository) (name : Str) (create : Bool) (fuel : Nat) :
    Repository × Option RexErr :=
  match lookupA r.files (S "refs/heads/" ++ name) with
  | some txt =>
    let r1 := { r with files := assocSet r.files (S "HEAD") (S "ref: refs/heads/" ++ name ++ [nl]) }
    checkout_restore r1 (pyStrip txt) fuel
  | none =>
    if isHash name then
      let r1 := { r with files := assocSet r.files (S "HEAD") (name ++ [nl]) }
      checkout_restore r1 name fuel
    else if create then
      let (_, parent) := read_head_ref r
      let files1 := assocSet r.files (S "refs/heads/" ++ name) ((parent.getD []) ++ [nl])
      let files2 := assocSet files1 (S "HEAD") (S "ref: refs/heads/" ++ name ++ [nl])
      ({ r with files := files2 }, none)
    else (r, some .unknownTarget)

/-! ### Add operations -/

/-- Join path segments back into a `/`-separated path
(`str(f.relative_to(self.path))`). -/
def joinSegs (p : List Str) : Str := List.intercalate (S "/") p

/-- `Repository.add_file`: store the file's bytes as a blob and upsert the
index entry (only reached when the file exists). -/
def add_file (r : Repository) (path : Str) : Repository :=
  match lookupA r.workdir (pathSegs path) with
  | none => r
  | some bytes =>
    let (objs, h) := store_object r.objects ⟨S "blob", bytes⟩
    { r with objects := objs, index := some (assocSet (load_index r) path h) }

/-- `Repository.add_directory`: stage every file strictly below the
directory whose path avoids a `.rex` segment. -/
def add_directory (r : Repository) (path : Str) : Repository :=
  let p := pathSegs path
  let files := r.workdir.filter
    (fun e => p.isPrefixOf e.1 && !(decide (p = e.1)) && !(e.1.contains (S ".rex")))
  let (objs, idx) := files.foldl
    (fun st e =>
      let (objs2, h) := store_object st.1 ⟨S "blob", e.2⟩
      (objs2, assocSet st.2 (joinSegs e.1) h))
    (r.objects, load_index r)
  { r with objects := objs, index := some idx }

/-- File existence at a path (an entry with exactly that segment path). -/
def is_file_at (r : Repository) (path : Str) : Bool :=
  (lookupA r.workdir (pathSegs path)).isSome

/-- Directory existence at a path (some file strictly below it; empty
directories are not represented in the files-only working directory
model). -/
def is_dir_at (r : Repository) (path : Str) : Bool :=
  r.workdir.any (fun e => (pathSegs path).isPrefixOf e.1 && !(decide (pathSegs path = e.1)))

/-- `Repository.add_path`: dispatch on file/directory; a path that is
neither falls through the `if`/`elif` with no `else` branch. -/
def add_path (r : Repository) (path : Str) : Repository × Option RexErr :=
  if is_file_at r path then (add_file r path, none)
  else if is_dir_at r path then (add_directory r path, none)
  else (r, none)

/-! ### Log walker (`Repository.log`) -/

/-- One hop of the log walk: `some parent` when the current object reads
back as a commit whose parsed record carries a truthy parent; `none` when
the walk ends here, by the `isinstance` break, by a truthy-test failure,
or by the exception a failed read or parse raises. -/
def logStep (objs : List ((Str × Str) × List Nat)) (h : Str) : Option Str :=
  match read_object objs h with
  | some (DObj.commit c) =>
    match commitParse c with
    | some d =>
      match d.parent with
      | some p => if p = [] then none else some p
      | none => none
    | none => none
  | _ => none

/-- The hash the walk holds after `n` hops (`none` once it has stopped). -/
def logChain (objs : List ((Str × Str) × List Nat)) (h : Str) : Nat → Option Str
  | 0 => some h
  | n + 1 =>
    match logChain objs h n with
    | some x => logStep objs x
    | none => none

/-- The entries the log walk starting at `h` emits, `none` when `fuel`
hops do not suffice to finish. A commit that parses is emitted before the
walk advances; an object that is missing, malformed, or not a commit ends
the walk without a further entry. -/
def logEntries (objs : List ((Str × Str) × List Nat)) (h : Str) : Nat → Option (List Str)
  | 0 => none
  | fuel + 1 =>
    match read_object objs h with
    | some (DObj.commit c) =>
      match commitParse c with
      | some d =>
        match d.parent with
        | some p =>
          if p = [] then some [h] else (logEntries objs p fuel).map (fun l => h :: l)
        | none => some [h]
      | none => some []
    | _ => some []

/-- `Repository.log`: resolve HEAD, walk from it when truthy. -/
def logRun (r : Repository) (fuel : Nat) : Option (List Str) :=
  match (read_head_ref r).2 with
  | none => some []
  | some head => if pyStrip head = [] then some [] else logEntries r.objects (pyStrip head) fuel


/-! ### Helper lemmas -/

/-- Looking a key up right after setting it. -/
theorem lookupA_cons_self {κ ν : Type} [DecidableEq κ] (k : κ) (v : ν) (r : List (κ × ν)) :
    lookupA ((k, v) :: r) k = some v := by
  simp [lookupA]

/-- Looking up the key just upserted yields the new value. -/
theorem assocSet_lookup_self {κ ν : Type} [DecidableEq κ] (m : List (κ × ν)) (k : κ) (v : ν) :
    lookupA (assocSet m k v) k = some v := by
  induction m with
  | nil => simp [assocSet, lookupA]
  | cons e r ih =>
    by_cases h : e.1 = k
    · simp [assocSet, h, lookupA]
    · simp [assocSet, h, lookupA, ih]

/-- Setting one key does not disturb lookups of another. -/
theorem assocSet_lookup_ne {κ ν : Type} [DecidableEq κ] (m : List (κ × ν)) (k k2 : κ) (v : ν)
    (h : k ≠ k2) : lookupA (assocSet m k v) k2 = lookupA m k2 := by
  induction m with
  | nil => simp [assocSet, lookupA, h]
  | cons e r ih =>
    by_cases he : e.1 = k
    · simp [assocSet, he, lookupA, h]
    · simp [assocSet, he, lookupA, ih]

/-! ### C1 -/

/-- C1: hashing is a function of `(kind, content)` alone, and
`store_object` writes only when no file exists at the hash's derived
path, performs no write otherwise, returns the hash in both cases, and
therefore storing two equal objects leaves exactly one on-disk object. -/
theorem C1_content_addressing (kind : Str) (c1 c2 : List Nat)
    (s : List ((Str × Str) × List Nat)) (heq : c1 = c2) :
    GitObject.hash ⟨kind, c1⟩ = GitObject.hash ⟨kind, c2⟩ ∧
    store_object (store_object s ⟨kind, c1⟩).1 ⟨kind, c2⟩
      = ((store_object s ⟨kind, c1⟩).1, GitObject.hash ⟨kind, c1⟩) ∧
    (lookupA s (objectPath (GitObject.hash ⟨kind, c1⟩)) = none →
      store_object s ⟨kind, c1⟩
        = ((objectPath (GitObject.hash ⟨kind, c1⟩), GitObject.serialize ⟨kind, c1⟩) :: s,
            GitObject.hash ⟨kind, c1⟩)) ∧
    (lookupA s (objectPath (GitObject.hash ⟨kind, c1⟩)) ≠ none →
      store_object s ⟨kind, c1⟩ = (s, GitObject.hash ⟨kind, c1⟩)) ∧
    (store_object (store_object [] ⟨kind, c1⟩).1 ⟨kind, c2⟩).1.length = 1 := by
  subst heq
  refine ⟨rfl, ?_, ?_, ?_, ?_⟩
  · cases h : lookupA s (objectPath (GitObject.hash ⟨kind, c1⟩)) with
    | some v => simp [store_object, h]
    | none => simp [store_object, h, lookupA_cons_self]
  · intro h
    simp [store_object, h]
  · intro h
    cases hh : lookupA s (objectPath (GitObject.hash ⟨kind, c1⟩)) with
    | some v => simp [store_object, hh]
    | none => exact absurd hh h
  · simp [store_object, lookupA, lookupA_cons_self]

/-- C1 witness: applying the theorem at a concrete blob and the empty
store. -/
theorem C1_content_addressing_witness :
    (store_object (store_object [] ⟨S "blob", [104]⟩).1 ⟨S "blob", [104]⟩).1.length = 1 :=
  (C1_content_addressing (S "blob") [104] [104] [] rfl).2.2.2.2

/-! ### C10 -/

/-- The fold of `add_entry` preserves the derived-content invariant. -/
theorem foldl_add_entry_inv (adds : List TreeEntry) :
    ∀ t : Tree, t.content = treeSerializeEntries t.entries →
      (adds.foldl (fun t e => t.add_entry e.1 e.2.1 e.2.2) t).content
        = treeSerializeEntries (adds.foldl (fun t e => t.add_entry e.1 e.2.1 e.2.2) t).entries := by
  induction adds with
  | nil => intro t ht; simpa using ht
  | cons a rest ih =>
    intro t _
    simp only [List.foldl_cons]
    exact ih _ rfl

/-- C10: after any sequence of `add_entry` calls the stored `content`
equals the canonical serialization of the current entry list, so the hash
computed from a `Tree` always reflects its entry set. -/
theorem C10_tree_content_invariant (es adds : List TreeEntry) :
    (adds.foldl (fun t e => t.add_entry e.1 e.2.1 e.2.2) (Tree.init es)).content
      = treeSerializeEntries
          (adds.foldl (fun t e => t.add_entry e.1 e.2.1 e.2.2) (Tree.init es)).entries ∧
    (adds.foldl (fun t e => t.add_entry e.1 e.2.1 e.2.2) (Tree.init es)).hash
      = GitObject.hash ⟨S "tree",
          treeSerializeEntries
            (adds.foldl (fun t e => t.add_entry e.1 e.2.1 e.2.2) (Tree.init es)).entries⟩ := by
  have h := foldl_add_entry_inv adds (Tree.init es) rfl
  exact ⟨h, by rw [Tree.hash, h]⟩

/-! ### C9 -/

/-- A concrete repository for the add-path counterexample. -/
def addRepo : Repository :=
  { files := [(S "HEAD", S "ref: refs/heads/master\n")],
    index := some [(S "x", S "00")],
    workdir := [([S "x"], [1])],
    objects := [] }

/-- C9 counterexample: adding a path that names neither a file nor a
directory surfaces no error at all (the claim asserts a `PathNotFound`
failure); the repository is returned unchanged with no error value. -/
theorem C9_counter_add_silent :
    add_path addRepo (S "missing.txt") = (addRepo, none) ∧
    (add_path addRepo (S "missing.txt")).2 ≠ some RexErr.pathNotFound := by
  constructor
  · rfl
  · decide

/-- C9 amended: `add_path` on a path that names neither an existing file
nor an existing directory is a silent no-op: the index (and the whole
repository) is left unchanged and no error is surfaced. -/
theorem C9_add_missing_noop (r : Repository) (path : Str)
    (hf : is_file_at r path = false) (hd : is_dir_at r path = false) :
    add_path r path = (r, none) := by
  simp [add_path, hf, hd]

/-- C9 witness. -/
theorem C9_add_missing_noop_witness :
    add_path addRepo (S "nope") = (addRepo, none) :=
  C9_add_missing_noop addRepo (S "nope") (by decide) (by decide)

/-! ### C4 -/

/-- A concrete repository for the checkout counterexample: one working
file, an empty object store. -/
def coRepo : Repository :=
  { files := [(S "HEAD", S "ref: refs/heads/master\n")],
    index := some [],
    workdir := [([S "f.txt"], [104])],
    objects := [] }

/-- C4 counterexample: checking out a hash-shaped name whose commit object
does not exist fails, yet the working directory has already been wiped
(the claim asserts a failing checkout performs no destructive step). -/
theorem C4_counter_wipe_before_validate :
    (checkout coRepo (S "aaaaaa") false 9).2.isSome = true ∧
    (checkout coRepo (S "aaaaaa") false 9).1.workdir ≠ coRepo.workdir := by
  decide

/-- C4 amended: only the unknown-target failure (the name matches no
branch, does not look like a hash, and `create` is unset) is checked
before any mutation, and it leaves the repository entirely unchanged;
validation of the target commit object itself happens only after the
working directory has been wiped. -/
theorem C4_unknown_target_no_mutation (r : Repository) (name : Str) (fuel : Nat)
    (hb : lookupA r.files (S "refs/heads/" ++ name) = none)
    (hh : isHash name = false) :
    checkout r name false fuel = (r, some RexErr.unknownTarget) := by
  simp [checkout, hb, hh]

/-- C4 witness. -/
theorem C4_unknown_target_no_mutation_witness :
    checkout coRepo (S "nope") false 9 = (coRepo, some RexErr.unknownTarget) :=
  C4_unknown_target_no_mutation coRepo (S "nope") 9 (by decide) (by decide)


/-! ### C2: codec round-trip -/

/-- Decoding inverts encoding (code points below `0x110000` are stable). -/
theorem bytesStr_strBytes (s : Str) : bytesStr (strBytes s) = s := by
  simp [strBytes, bytesStr, List.map_map, Function.comp_def, Char.ofNat_toNat]

/-- A character is determined by its code point. -/
theorem char_eq_of_toNat {c : Char} {k : Nat} (h : c.toNat = k) : c = Char.ofNat k := by
  rw [← h, Char.ofNat_toNat]

/-- Byte membership in an encoded string comes from a character. -/
theorem mem_strBytes {s : Str} {x : Nat} (h : x ∈ strBytes s) : ∃ c ∈ s, c.toNat = x := by
  simpa [strBytes] using h

/-- Every character the decimal worker emits is a digit. -/
theorem natStrAux_digits (fuel : Nat) :
    ∀ n : Nat, ∀ c ∈ natStrAux fuel n, c ∈ S "0123456789" := by
  induction fuel with
  | zero => intro n c hc; simp [natStrAux] at hc
  | succ fuel ih =>
    intro n c hc
    rw [natStrAux] at hc
    by_cases h : n < 10
    · rw [if_pos h] at hc
      rw [List.mem_singleton] at hc
      subst hc
      interval_cases n <;> decide
    · rw [if_neg h] at hc
      rcases List.mem_append.mp hc with h1 | h1
      · exact ih (n / 10) c h1
      · rw [List.mem_singleton] at h1
        subst h1
        have hm : n % 10 < 10 := Nat.mod_lt _ (by omega)
        set m := n % 10 with hmdef
        clear_value m
        interval_cases m <;> decide

/-- Every character of a decimal rendering is a digit. -/
theorem natStr_digits (n : Nat) : ∀ c ∈ natStr n, c ∈ S "0123456789" :=
  natStrAux_digits (n + 1) n

/-- Digit characters have code points between 48 and 57. -/
theorem digit_toNat {c : Char} (h : c ∈ S "0123456789") : 48 ≤ c.toNat ∧ c.toNat ≤ 57 := by
  have hl : S "0123456789" = ['0', '1', '2', '3', '4', '5', '6', '7', '8', '9'] := by decide
  rw [hl] at h
  simp only [List.mem_cons, List.not_mem_nil, or_false] at h
  rcases h with h | h | h | h | h | h | h | h | h | h <;> subst h <;> decide

/-- `splitAtFirst` at the first genuine occurrence of the separator. -/
theorem splitAtFirst_append {sep : Nat} (a b : List Nat) (ha : sep ∉ a) :
    splitAtFirst sep (a ++ sep :: b) = some (a, b) := by
  induction a with
  | nil => simp [splitAtFirst]
  | cons x r ih =>
    have hx : ¬x = sep := fun e => ha (by simp [e])
    have hr : sep ∉ r := fun hm => ha (List.mem_cons_of_mem _ hm)
    simp [splitAtFirst, hx, ih hr]

/-- `splitAllOn` of a separator-free list. -/
theorem splitAllOn_no_sep {sep : Nat} (a : List Nat) (ha : sep ∉ a) :
    splitAllOn sep a = [a] := by
  induction a with
  | nil => simp [splitAllOn]
  | cons x r ih =>
    have hx : ¬x = sep := fun e => ha (by simp [e])
    have hr : sep ∉ r := fun hm => ha (List.mem_cons_of_mem _ hm)
    simp [splitAllOn, hx, ih hr]

/-- `splitAllOn` around a single separator occurrence. -/
theorem splitAllOn_single {sep : Nat} (a b : List Nat) (ha : sep ∉ a) (hb : sep ∉ b) :
    splitAllOn sep (a ++ sep :: b) = [a, b] := by
  induction a with
  | nil => simp [splitAllOn, splitAllOn_no_sep b hb]
  | cons x r ih =>
    have hx : ¬x = sep := fun e => ha (by simp [e])
    have hr : sep ∉ r := fun hm => ha (List.mem_cons_of_mem _ hm)
    simp [splitAllOn, hx, ih hr]

/-- The header decomposed around its space and final NUL. -/
theorem headerBytes_eq (kind : Str) (n : Nat) :
    headerBytes kind n = (strBytes kind ++ 32 :: strBytes (natStr n)) ++ 0 :: [] := by
  have hsp : (S " ").map Char.toNat = [32] := by decide
  simp only [headerBytes, strBytes, List.map_append, hsp]
  simp

/-- C2 counterexample: the round-trip fails as universally stated — a
`tree`-kind object whose content is not a canonical entry encoding comes
back with re-serialized (here: empty) content. -/
theorem C2_counter_tree_reserialize :
    (gitDeserialize (GitObject.serialize ⟨S "tree", [120]⟩)).map (fun d => (d.kind, d.content))
      ≠ some (S "tree", [120]) := by
  decide

/-- C2 amended: `deserialize (serialize (kind, content)) = (kind, content)`
for every kind containing neither a space nor a NUL character, provided —
for the `tree` kind, whose decoder re-parses and re-serializes — the
content is a fixed point of that re-parse. All other kinds (`blob`,
`commit`, unrecognized) round-trip for arbitrary content. -/
theorem C2_roundtrip (kind : Str) (content : List Nat)
    (hsp : ' ' ∉ kind) (hnul : Char.ofNat 0 ∉ kind)
    (htree : kind = S "tree" →
      ∃ es, treeParseEntries content = some es ∧ treeSerializeEntries es = content) :
    ∃ d, gitDeserialize (GitObject.serialize ⟨kind, content⟩) = some d ∧
      d.kind = kind ∧ d.content = content := by
  have h0k : (0 : Nat) ∉ strBytes kind := by
    intro hm
    obtain ⟨c, hc, hcn⟩ := mem_strBytes hm
    exact hnul (char_eq_of_toNat hcn ▸ hc)
  have h32k : (32 : Nat) ∉ strBytes kind := by
    intro hm
    obtain ⟨c, hc, hcn⟩ := mem_strBytes hm
    have : c = Char.ofNat 32 := char_eq_of_toNat hcn
    have hsp32 : Char.ofNat 32 = ' ' := by decide
    exact hsp (by rw [← hsp32]; exact this ▸ hc)
  have hdig : ∀ x ∈ strBytes (natStr content.length), 48 ≤ x ∧ x ≤ 57 := by
    intro x hx
    obtain ⟨c, hc, hcn⟩ := mem_strBytes hx
    have := digit_toNat (natStr_digits _ c hc)
    omega
  have h0d : (0 : Nat) ∉ strBytes (natStr content.length) := by
    intro hm; have := hdig 0 hm; omega
  have h32d : (32 : Nat) ∉ strBytes (natStr content.length) := by
    intro hm; have := hdig 32 hm; omega
  have hser : GitObject.serialize ⟨kind, content⟩
      = (strBytes kind ++ 32 :: strBytes (natStr content.length)) ++ 0 :: content := by
    show zlibCompress (headerBytes kind content.length ++ content) = _
    rw [zlibCompress, headerBytes_eq]
    simp
  have hhead : (0 : Nat) ∉ strBytes kind ++ 32 :: strBytes (natStr content.length) := by
    intro hm
    rcases List.mem_append.mp hm with h | h
    · exact h0k h
    · rcases List.mem_cons.mp h with h | h
      · omega
      · exact h0d h
  have hsplit0 : splitAtFirst 0 (GitObject.serialize ⟨kind, content⟩)
      = some (strBytes kind ++ 32 :: strBytes (natStr content.length), content) := by
    rw [hser]; exact splitAtFirst_append _ _ hhead
  have hsplit32 : splitAllOn 32 (strBytes kind ++ 32 :: strBytes (natStr content.length))
      = [strBytes kind, strBytes (natStr content.length)] :=
    splitAllOn_single _ _ h32k h32d
  by_cases hb : kind = S "blob"
  · subst hb
    refine ⟨.blob content, ?_, rfl, rfl⟩
    simp [gitDeserialize, zlibDecompress, hsplit0, hsplit32, bytesStr_strBytes]
  · by_cases ht : kind = S "tree"
    · subst ht
      obtain ⟨es, hes, hesc⟩ := htree rfl
      refine ⟨.tree es (treeSerializeEntries es), ?_, rfl, by simp [DObj.content, hesc]⟩
      have hbt : ¬(S "tree" = S "blob") := by decide
      simp [gitDeserialize, zlibDecompress, hsplit0, hsplit32, bytesStr_strBytes, hbt, hes]
    · by_cases hc : kind = S "commit"
      · subst hc
        refine ⟨.commit content, ?_, rfl, rfl⟩
        have h1 : ¬(S "commit" = S "blob") := by decide
        have h2 : ¬(S "commit" = S "tree") := by decide
        simp [gitDeserialize, zlibDecompress, hsplit0, hsplit32, bytesStr_strBytes, h1, h2]
      · refine ⟨.other kind content, ?_, rfl, rfl⟩
        simp [gitDeserialize, zlibDecompress, hsplit0, hsplit32, bytesStr_strBytes, hb, ht, hc]

/-- C2 witness: a blob whose content includes NUL, a non-ASCII byte and a
newline round-trips. -/
theorem C2_roundtrip_witness :
    ∃ d, gitDeserialize (GitObject.serialize ⟨S "blob", [0, 255, 10]⟩) = some d ∧
      d.kind = S "blob" ∧ d.content = [0, 255, 10] :=
  C2_roundtrip (S "blob") [0, 255, 10] (by decide) (by decide)
    (fun h => absurd h (by decide))


/-! ### C3: tree canonicality -/

/-- Insertion permutes. -/
theorem pyInsort_perm {α : Type} (le : α → α → Bool) (x : α) (l : List α) :
    (pyInsort le x l).Perm (x :: l) := by
  induction l with
  | nil => simp [pyInsort]
  | cons y r ih =>
    rw [pyInsort]
    by_cases h : (le x y && !le y x) = true
    · rw [if_pos h]
    · rw [if_neg h]
      exact (ih.cons y).trans (List.Perm.swap x y r)

/-- The sort worker permutes (with the accumulator in front). -/
theorem foldl_insort_perm {α : Type} (le : α → α → Bool) (l : List α) :
    ∀ acc : List α, (l.foldl (fun acc x => pyInsort le x acc) acc).Perm (acc ++ l) := by
  induction l with
  | nil => intro acc; simp
  | cons x r ih =>
    intro acc
    rw [List.foldl_cons]
    exact (ih (pyInsort le x acc)).trans
      (((pyInsort_perm le x acc).append_right r).trans List.perm_middle.symm)

/-- `pySorted` is a permutation of its input. -/
theorem pySorted_perm {α : Type} (le : α → α → Bool) (l : List α) :
    (pySorted le l).Perm l := by
  simpa using foldl_insort_perm le l []

/-- Insertion preserves sortedness for a total, transitive comparison. -/
theorem pyInsort_pairwise {α : Type} {le : α → α → Bool}
    (htot : ∀ a b, (le a b || le b a) = true)
    (htrans : ∀ a b c, le a b = true → le b c = true → le a c = true)
    (x : α) : ∀ {l : List α}, l.Pairwise (fun a b => le a b = true) →
      (pyInsort le x l).Pairwise (fun a b => le a b = true) := by
  intro l
  induction l with
  | nil => intro _; simp [pyInsort]
  | cons y r ih =>
    intro hl
    rcases List.pairwise_cons.mp hl with ⟨hy, hr⟩
    rw [pyInsort]
    by_cases h : (le x y && !le y x) = true
    · rw [if_pos h]
      rcases Bool.and_eq_true_iff.mp h with ⟨h1, _⟩
      refine List.pairwise_cons.mpr ⟨?_, hl⟩
      intro z hz
      rcases List.mem_cons.mp hz with rfl | hz2
      · exact h1
      · exact htrans x y z h1 (hy z hz2)
    · rw [if_neg h]
      have hyx : le y x = true := by
        rcases Bool.or_eq_true_iff.mp (htot x y) with h1 | h1
        · by_cases h2 : le y x = true
          · exact h2
          · exact absurd (by simp [h1, h2]) h
        · exact h1
      refine List.pairwise_cons.mpr ⟨?_, ih hr⟩
      intro z hz
      rcases List.mem_cons.mp ((pyInsort_perm le x r).mem_iff.mp hz) with rfl | hz2
      · exact hyx
      · exact hy z hz2

/-- `pySorted` sorts, for a total, transitive comparison. -/
theorem pySorted_pairwise {α : Type} {le : α → α → Bool}
    (htot : ∀ a b, (le a b || le b a) = true)
    (htrans : ∀ a b c, le a b = true → le b c = true → le a c = true)
    (l : List α) : (pySorted le l).Pairwise (fun a b => le a b = true) := by
  have haux : ∀ (l2 acc : List α), acc.Pairwise (fun a b => le a b = true) →
      (l2.foldl (fun acc x => pyInsort le x acc) acc).Pairwise (fun a b => le a b = true) := by
    intro l2
    induction l2 with
    | nil => intro acc h; simpa using h
    | cons x r ih =>
      intro acc h
      rw [List.foldl_cons]
      exact ih (pyInsort le x acc) (pyInsort_pairwise htot htrans x h)
  exact haux l [] (by simp)

/-- Sorting by entry name is insensitive to the order in which a
duplicate-name-free entry list was assembled. -/
theorem pySorted_eq_of_perm {l1 l2 : List TreeEntry} (hp : l1.Perm l2)
    (hn : (l1.map (fun e => e.2.1)).Nodup) :
    pySorted (fun a b => decide (a.2.1 ≤ b.2.1)) l1
      = pySorted (fun a b => decide (a.2.1 ≤ b.2.1)) l2 := by
  have htot : ∀ a b : TreeEntry, (decide (a.2.1 ≤ b.2.1) || decide (b.2.1 ≤ a.2.1)) = true := by
    intro a b
    rcases le_total a.2.1 b.2.1 with h | h <;> simp [h]
  have htrans : ∀ a b c : TreeEntry, decide (a.2.1 ≤ b.2.1) = true →
      decide (b.2.1 ≤ c.2.1) = true → decide (a.2.1 ≤ c.2.1) = true := by
    intro a b c h1 h2
    simp only [decide_eq_true_eq] at h1 h2 ⊢
    exact le_trans h1 h2
  have hperm1 := pySorted_perm (fun a b : TreeEntry => decide (a.2.1 ≤ b.2.1)) l1
  have hperm2 := pySorted_perm (fun a b : TreeEntry => decide (a.2.1 ≤ b.2.1)) l2
  have hs1 := pySorted_pairwise htot htrans l1
  have hs2 := pySorted_pairwise htot htrans l2
  have hsymm : ∀ {x y : TreeEntry}, x.2.1 ≠ y.2.1 → y.2.1 ≠ x.2.1 := fun h => h.symm
  have hne1 : l1.Pairwise (fun a b : TreeEntry => a.2.1 ≠ b.2.1) := List.pairwise_map.mp hn
  have hne2 : l2.Pairwise (fun a b : TreeEntry => a.2.1 ≠ b.2.1) :=
    (List.Perm.pairwise_iff hsymm hp).mp hne1
  have hnes1 := (List.Perm.pairwise_iff hsymm hperm1).mpr hne1
  have hnes2 := (List.Perm.pairwise_iff hsymm hperm2).mpr hne2
  have hlt1 : (pySorted (fun a b : TreeEntry => decide (a.2.1 ≤ b.2.1)) l1).Pairwise
      (fun a b : TreeEntry => a.2.1 < b.2.1) :=
    (hs1.and hnes1).imp (fun hab => lt_of_le_of_ne (of_decide_eq_true hab.1) hab.2)
  have hlt2 : (pySorted (fun a b : TreeEntry => decide (a.2.1 ≤ b.2.1)) l2).Pairwise
      (fun a b : TreeEntry => a.2.1 < b.2.1) :=
    (hs2.and hnes2).imp (fun hab => lt_of_le_of_ne (of_decide_eq_true hab.1) hab.2)
  have hperm12 := hperm1.trans (hp.trans hperm2.symm)
  haveI : IsAntisymm TreeEntry (fun a b : TreeEntry => a.2.1 < b.2.1) :=
    ⟨fun _ _ h1 h2 => absurd h1 (lt_asymm h2)⟩
  exact List.eq_of_perm_of_sorted hperm12 hlt1 hlt2

/-- Folding `add_entry` appends to the entry list. -/
theorem foldl_add_entry_entries (adds : List TreeEntry) :
    ∀ t : Tree, (adds.foldl (fun t e => t.add_entry e.1 e.2.1 e.2.2) t).entries
      = t.entries ++ adds := by
  induction adds with
  | nil => intro t; simp
  | cons a rest ih =>
    intro t
    simp only [List.foldl_cons]
    rw [ih]
    simp [Tree.add_entry]

set_option maxRecDepth 100000 in
/-- C3 counterexample: two insertion orders of the same two-element entry
set (duplicate name `a`, distinct modes and hashes) yield different
serialized contents and different hashes — the stable sort preserves
insertion order among equal names. -/
theorem C3_counter_duplicate_names :
    ([(S "100644", S "a", S "00"), (S "40000", S "a", S "ff")].foldl
        (fun t e => t.add_entry e.1 e.2.1 e.2.2) (Tree.init [])).content
      ≠ ([(S "40000", S "a", S "ff"), (S "100644", S "a", S "00")].foldl
          (fun t e => t.add_entry e.1 e.2.1 e.2.2) (Tree.init [])).content ∧
    ([(S "100644", S "a", S "00"), (S "40000", S "a", S "ff")].foldl
        (fun t e => t.add_entry e.1 e.2.1 e.2.2) (Tree.init [])).hash
      ≠ ([(S "40000", S "a", S "ff"), (S "100644", S "a", S "00")].foldl
          (fun t e => t.add_entry e.1 e.2.1 e.2.2) (Tree.init [])).hash := by
  decide

/-- C3 amended: for entries with pairwise distinct names, any two
insertion orders into a `Tree` produce the identical serialized content
and hence the identical hash: the encoding is a function of the entry set
alone. -/
theorem C3_tree_canonical (l1 l2 : List TreeEntry) (hp : l1.Perm l2)
    (hn : (l1.map (fun e => e.2.1)).Nodup) :
    (l1.foldl (fun t e => t.add_entry e.1 e.2.1 e.2.2) (Tree.init [])).content
      = (l2.foldl (fun t e => t.add_entry e.1 e.2.1 e.2.2) (Tree.init [])).content ∧
    (l1.foldl (fun t e => t.add_entry e.1 e.2.1 e.2.2) (Tree.init [])).hash
      = (l2.foldl (fun t e => t.add_entry e.1 e.2.1 e.2.2) (Tree.init [])).hash := by
  have hc1 := foldl_add_entry_inv l1 (Tree.init []) rfl
  have hc2 := foldl_add_entry_inv l2 (Tree.init []) rfl
  have he1 : (l1.foldl (fun t e => t.add_entry e.1 e.2.1 e.2.2) (Tree.init [])).entries = l1 := by
    rw [foldl_add_entry_entries]; simp [Tree.init]
  have he2 : (l2.foldl (fun t e => t.add_entry e.1 e.2.1 e.2.2) (Tree.init [])).entries = l2 := by
    rw [foldl_add_entry_entries]; simp [Tree.init]
  have hcontent :
      (l1.foldl (fun t e => t.add_entry e.1 e.2.1 e.2.2) (Tree.init [])).content
        = (l2.foldl (fun t e => t.add_entry e.1 e.2.1 e.2.2) (Tree.init [])).content := by
    rw [hc1, hc2, he1, he2, treeSerializeEntries, treeSerializeEntries,
      pySorted_eq_of_perm hp hn]
  exact ⟨hcontent, by rw [Tree.hash, Tree.hash, hcontent]⟩

/-- C3 witness: two orders of a distinct-name entry pair. -/
theorem C3_tree_canonical_witness :
    ([(S "100644", S "b", S "01"), (S "100644", S "a", S "02")].foldl
        (fun t e => t.add_entry e.1 e.2.1 e.2.2) (Tree.init [])).content
      = ([(S "100644", S "a", S "02"), (S "100644", S "b", S "01")].foldl
          (fun t e => t.add_entry e.1 e.2.1 e.2.2) (Tree.init [])).content :=
  (C3_tree_canonical _ _ (List.Perm.swap _ _ _) (by decide)).1


/-! ### C7: commit in detached versus symbolic state -/

/-- A detached repository whose staged index contains a conflicting pair:
`a` staged as a file and `a/b` staged through it. -/
def badIndexRepo : Repository :=
  { files := [(S "HEAD", S "abc123\n")],
    index := some [(S "a", S "11"), (S "a/b", S "22")],
    workdir := [],
    objects := [] }

/-- C7 counterexample: with HEAD holding a direct commit hash, `commit`
does not succeed on every state — the staging conflict `TypeError`
escapes, so the claim's unconditional `commit succeeds` fails. -/
theorem C7_counter_commit_fails :
    commit badIndexRepo (S "m") (S "au") 0 (S "+0000") = none := by
  decide

/-- C7 amended: when the tree build succeeds, a commit in detached state
writes the new hash directly to the HEAD file, leaving every other `.rex`
text file (in particular every branch file) byte-for-byte unchanged; a
commit under a symbolic HEAD whose reference is not the HEAD file itself
writes the hash to the referenced branch file and leaves HEAD unchanged. -/
theorem C7_commit_ref_update (r : Repository) (t m a tz : Str) (now : Nat)
    (hhead : lookupA r.files (S "HEAD") = some t)
    (hsucc : (commit r m a now tz).isSome = true) :
    ((S "ref: ").isPrefixOf (pyStrip t) = false →
      ∃ out, commit r m a now tz = some out ∧
        out.1.files = assocSet r.files (S "HEAD") (out.2.1 ++ [nl])) ∧
    ((S "ref: ").isPrefixOf (pyStrip t) = true → (pyStrip t).drop 5 ≠ S "HEAD" →
      ∃ out, commit r m a now tz = some out ∧
        out.1.files = assocSet r.files ((pyStrip t).drop 5) (out.2.1 ++ [nl]) ∧
        lookupA out.1.files (S "HEAD") = some t) := by
  rcases hct : create_tree_from_index r.objects (load_index r) with _ | p
  · rw [commit] at hsucc
    rw [hct] at hsucc
    simp at hsucc
  · obtain ⟨objs1, th⟩ := p
    constructor
    · intro hnp
      have hrhr : read_head_ref r = (none, some (pyStrip t)) := by
        simp [read_head_ref, hhead, hnp]
      rw [commit, hct, hrhr]
      exact ⟨_, rfl, rfl⟩
    · intro hrp hne
      have hrhr : ∃ pval, read_head_ref r = (some ((pyStrip t).drop 5), pval) := by
        rw [read_head_ref, hhead]
        simp only [hrp, if_true]
        cases lookupA r.files ((pyStrip t).drop 5) <;> exact ⟨_, rfl⟩
      obtain ⟨pval, hrhr⟩ := hrhr
      rw [commit, hct, hrhr]
      refine ⟨_, rfl, rfl, ?_⟩
      show lookupA (assocSet r.files ((pyStrip t).drop 5) _) (S "HEAD") = some t
      rw [assocSet_lookup_ne _ _ _ _ hne, hhead]

/-- A detached repository with an empty index for the C7 witness. -/
def detRepo : Repository :=
  { files := [(S "HEAD", S "abc123\n")], index := some [], workdir := [], objects := [] }

set_option maxRecDepth 100000 in
/-- C7 witness: a concrete detached commit updates exactly the HEAD file. -/
theorem C7_commit_ref_update_witness :
    ∃ out, commit detRepo (S "m") (S "Rex User <user@rex.com>") 0 (S "+0000") = some out ∧
      out.1.files = assocSet detRepo.files (S "HEAD") (out.2.1 ++ [nl]) :=
  (C7_commit_ref_update detRepo (S "abc123\n") (S "m") (S "Rex User <user@rex.com>")
    (S "+0000") 0 (by decide) (by decide)).1 (by decide)


/-! ### C8: log termination -/

/-- Once the walk has stopped it stays stopped. -/
theorem logChain_none_succ (objs : List ((Str × Str) × List Nat)) (h : Str) (n : Nat)
    (hn : logChain objs h n = none) : logChain objs h (n + 1) = none := by
  rw [logChain, hn]

/-- Once the walk has stopped it stays stopped (monotone form). -/
theorem logChain_none_mono (objs : List ((Str × Str) × List Nat)) (h : Str) {m n : Nat}
    (hmn : m ≤ n) (hm : logChain objs h m = none) : logChain objs h n = none := by
  induction n with
  | zero =>
    have h0 : m = 0 := by omega
    rw [h0] at hm
    exact hm
  | succ n ih =>
    by_cases he : m = n + 1
    · rw [he] at hm
      exact hm
    · exact logChain_none_succ objs h n (ih (by omega))

/-- The walk from `h` after `n + 1` hops is the walk from `h`'s successor
after `n` hops. -/
theorem logChain_shift (objs : List ((Str × Str) × List Nat)) (h : Str) (n : Nat) :
    logChain objs h (n + 1)
      = match logStep objs h with
        | some p => logChain objs p n
        | none => none := by
  induction n with
  | zero =>
    rw [logChain]
    cases hs : logStep objs h <;> simp [logChain, hs]
  | succ n ih =>
    rw [logChain, ih]
    cases hs : logStep objs h
    · simp [hs]
    · simp only [hs]
      conv_rhs => rw [logChain]

/-- A walk that stops within its fuel emits a finite entry list. -/
theorem logEntries_some_of_chain_none (objs : List ((Str × Str) × List Nat)) :
    ∀ (n : Nat) (h : Str), logChain objs h n = none →
      ∃ l, logEntries objs h n = some l := by
  intro n
  induction n with
  | zero => intro h hc; cases hc
  | succ n ih =>
    intro h hc
    rw [logEntries]
    cases hro : read_object objs h with
    | none => exact ⟨[], by simp [hro]⟩
    | some obj =>
      cases obj with
      | blob c => exact ⟨[], by simp [hro]⟩
      | tree es c2 => exact ⟨[], by simp [hro]⟩
      | other k c2 => exact ⟨[], by simp [hro]⟩
      | commit c =>
        cases hcp : commitParse c with
        | none => exact ⟨[], by simp [hro, hcp]⟩
        | some d =>
          cases hpar : d.parent with
          | none => exact ⟨[h], by simp [hro, hcp, hpar]⟩
          | some p =>
            by_cases hpe : p = []
            · exact ⟨[h], by simp [hro, hcp, hpar, hpe]⟩
            · have hstep : logStep objs h = some p := by
                simp [logStep, hro, hcp, hpar, hpe]
              have hpn : logChain objs p n = none := by
                have hsh := logChain_shift objs h n
                rw [hstep] at hsh
                simp only [] at hsh
                rw [← hsh]
                exact hc
              obtain ⟨l, hl⟩ := ih p hpn
              exact ⟨h :: l, by simp [hro, hcp, hpar, hpe, hl]⟩

/-- `objectPath` is injective. -/
theorem objectPath_inj {a b : Str} (h : objectPath a = objectPath b) : a = b := by
  have h1 : a.take 2 = b.take 2 := congrArg Prod.fst h
  have h2 : a.drop 2 = b.drop 2 := congrArg Prod.snd h
  rw [← List.take_append_drop 2 a, ← List.take_append_drop 2 b, h1, h2]

/-- A successful lookup means the key occurs in the list. -/
theorem lookupA_some_mem {κ ν : Type} [DecidableEq κ] :
    ∀ {m : List (κ × ν)} {k : κ} {v : ν}, lookupA m k = some v → k ∈ m.map Prod.fst := by
  intro m
  induction m with
  | nil => intro k v h; cases h
  | cons e r ih =>
    intro k v h
    rw [lookupA] at h
    by_cases he : e.1 = k
    · simp [he]
    · rw [if_neg he] at h
      exact List.mem_cons_of_mem _ (ih h)

/-- A continuing walk step keys the current hash into the store. -/
theorem logStep_some_key {objs : List ((Str × Str) × List Nat)} {x p : Str}
    (h : logStep objs x = some p) : objectPath x ∈ objs.map Prod.fst := by
  rw [logStep] at h
  cases hro : read_object objs x with
  | none => rw [hro] at h; cases h
  | some obj =>
    rw [read_object] at hro
    cases hlk : lookupA objs (objectPath x) with
    | none => rw [hlk] at hro; cases hro
    | some v => exact lookupA_some_mem hlk

set_option maxRecDepth 2000 in
/-- The store with a self-parent commit at its own key. -/
def cycObjs : List ((Str × Str) × List Nat) :=
  [((S "aa", S "aaaa"),
    GitObject.serialize ⟨S "commit", strBytes (S "tree t\nparent aaaaaa\n\nm")⟩)]

/-- C8 counterexample: on a crafted store holding a commit whose parent
field is its own hash key, the log walk never stops — there is no hop
count after which it has terminated, refuting termination for every store
contents. -/
theorem C8_counter_cyclic_store :
    ¬ ∃ n, logChain cycObjs (S "aaaaaa") n = none := by
  rintro ⟨n, hn⟩
  have hall : ∀ m, logChain cycObjs (S "aaaaaa") m = some (S "aaaaaa") := by
    intro m
    induction m with
    | zero => rfl
    | succ m ih =>
      rw [logChain, ih]
      decide
  rw [hall n] at hn
  cases hn

/-- C8 amended: over a finite store whose walk revisits no hash (the
acyclicity that every store produced by the program's own commits has),
the log walk terminates within `size + 1` hops and emits a finite entry
sequence; a root commit with no parent line yields exactly one entry. -/
theorem C8_log_terminates (objs : List ((Str × Str) × List Nat)) (h : Str)
    (hnr : ∀ j, j < objs.length + 2 → ∀ i, i < j →
      logChain objs h i ≠ none → logChain objs h i ≠ logChain objs h j) :
    (∃ l, logEntries objs h (objs.length + 1) = some l) ∧
    ((∃ c d, read_object objs h = some (DObj.commit c) ∧ commitParse c = some d ∧
        d.parent = none) →
      logEntries objs h (objs.length + 1) = some [h]) := by
  constructor
  · apply logEntries_some_of_chain_none
    by_contra hcont
    have hallsome : ∀ k, k ≤ objs.length + 1 → logChain objs h k ≠ none := by
      intro k hk hkn
      exact hcont (logChain_none_mono objs h hk hkn)
    have hkey : ∀ k, k ≤ objs.length →
        objectPath ((logChain objs h k).getD []) ∈ objs.map Prod.fst := by
      intro k hk
      obtain ⟨x, hx⟩ := Option.ne_none_iff_exists'.mp (hallsome k (by omega))
      have hnext := hallsome (k + 1) (by omega)
      rw [logChain, hx] at hnext
      obtain ⟨p, hp⟩ := Option.ne_none_iff_exists'.mp hnext
      rw [hx]
      exact logStep_some_key hp
    have hinj : ∀ k1 ∈ List.range (objs.length + 1), ∀ k2 ∈ List.range (objs.length + 1),
        objectPath ((logChain objs h k1).getD []) = objectPath ((logChain objs h k2).getD [])
          → k1 = k2 := by
      intro k1 hk1 k2 hk2 hf
      rw [List.mem_range] at hk1 hk2
      by_contra hne
      obtain ⟨x1, hx1⟩ := Option.ne_none_iff_exists'.mp (hallsome k1 (by omega))
      obtain ⟨x2, hx2⟩ := Option.ne_none_iff_exists'.mp (hallsome k2 (by omega))
      have hx12 : x1 = x2 := by
        rw [hx1, hx2] at hf
        simpa using objectPath_inj hf
      rcases Nat.lt_or_ge k1 k2 with hlt | hge
      · have := hnr k2 (by omega) k1 hlt (hallsome k1 (by omega))
        rw [hx1, hx2, hx12] at this
        exact this rfl
      · have hlt2 : k2 < k1 := by omega
        have := hnr k1 (by omega) k2 hlt2 (hallsome k2 (by omega))
        rw [hx1, hx2, hx12] at this
        exact this rfl
    have hnd : ((List.range (objs.length + 1)).map
        (fun k => objectPath ((logChain objs h k).getD []))).Nodup :=
      (List.nodup_range _).map_on hinj
    have hsub : ((List.range (objs.length + 1)).map
        (fun k => objectPath ((logChain objs h k).getD []))).toFinset
          ⊆ (objs.map Prod.fst).toFinset := by
      intro y hy
      rw [List.mem_toFinset] at hy
      obtain ⟨k, hk, hyk⟩ := List.mem_map.mp hy
      rw [List.mem_range] at hk
      rw [List.mem_toFinset, ← hyk]
      exact hkey k (by omega)
    have hcard1 : ((List.range (objs.length + 1)).map
        (fun k => objectPath ((logChain objs h k).getD []))).toFinset.card
          = objs.length + 1 := by
      rw [List.toFinset_card_of_nodup hnd]
      simp
    have hcard2 := Finset.card_le_card hsub
    have hcard3 := List.toFinset_card_le (objs.map Prod.fst)
    rw [hcard1] at hcard2
    simp only [List.length_map] at hcard3
    omega
  · rintro ⟨c, d, hro, hcp, hpar⟩
    rw [logEntries]
    simp [hro, hcp, hpar]

/-- The store with a single well-formed root commit. -/
def rootObjs : List ((Str × Str) × List Nat) :=
  [((S "aa", S "bbcc"),
    GitObject.serialize ⟨S "commit", strBytes (S "tree t\n\nhello")⟩)]

/-- C8 witness: on the root-commit store the theorem applies; its second
part gives the single-entry run. -/
theorem C8_log_terminates_witness :
    logEntries rootObjs (S "aabbcc") (rootObjs.length + 1) = some [S "aabbcc"] :=
  (C8_log_terminates rootObjs (S "aabbcc") (by decide)).2
    ⟨strBytes (S "tree t\n\nhello"),
     { tree := some (S "t"), parent := none, author := none, message := S "hello" },
     by decide, by decide, rfl⟩


/-! ### Text facts feeding the commit-chain proofs -/

/-- `dropWhile` is the identity when no element satisfies the predicate. -/
theorem dropWhile_no {p : Char → Bool} :
    ∀ {l : Str}, (∀ c ∈ l, p c = false) → l.dropWhile p = l := by
  intro l
  induction l with
  | nil => intro _; rfl
  | cons c r ih =>
    intro h
    rw [List.dropWhile_cons, h c (by simp)]
    simp

/-- Stripping a whitespace-free nonempty string with one trailing newline
recovers the string. -/
theorem pyStrip_nows_nl (s : Str) (h : ∀ c ∈ s, c.isWhitespace = false) (hne : s ≠ []) :
    pyStrip (s ++ [nl]) = s := by
  obtain ⟨c, s2, rfl⟩ : ∃ c s2, s = c :: s2 := by
    cases s with
    | nil => exact absurd rfl hne
    | cons c s2 => exact ⟨c, s2, rfl⟩
  unfold pyStrip
  rw [List.cons_append, List.dropWhile_cons, h c (by simp)]
  simp only [Bool.false_eq_true, if_false]
  have hrev : (c :: (s2 ++ [nl])).reverse = nl :: (c :: s2).reverse := by
    simp
  rw [hrev, List.dropWhile_cons]
  have hnl : nl.isWhitespace = true := by decide
  rw [hnl]
  simp only [if_true]
  rw [dropWhile_no (fun x hx => h x (List.mem_reverse.mp hx))]
  simp

/-- Big-endian bytes are below 256. -/
theorem beBytes_lt : ∀ (k n : Nat), ∀ x ∈ beBytes k n, x < 256 := by
  intro k
  induction k with
  | zero => intro n x hx; cases hx
  | succ k ih =>
    intro n x hx
    rw [beBytes] at hx
    rcases List.mem_append.mp hx with h1 | h1
    · exact ih (n / 256) x h1
    · rw [List.mem_singleton] at h1
      subst h1
      exact Nat.mod_lt _ (by omega)

/-- Big-endian byte strings have the requested length. -/
theorem beBytes_length : ∀ (k n : Nat), (beBytes k n).length = k := by
  intro k
  induction k with
  | zero => intro n; rfl
  | succ k ih => intro n; rw [beBytes]; simp [ih]

/-- Hex digits of values below 16 are hex characters. -/
theorem hexDigitChar_mem : ∀ m, m < 16 → hexDigitChar m ∈ S "0123456789abcdef" := by
  decide

/-- `bytes.hex()` of genuine bytes consists of hex characters. -/
theorem bytesHex_hexmem :
    ∀ (b : List Nat), (∀ x ∈ b, x < 256) → ∀ c ∈ bytesHex b, c ∈ S "0123456789abcdef" := by
  intro b
  induction b with
  | nil => intro _ c hc; cases hc
  | cons x r ih =>
    intro hb c hc
    have hx := hb x (by simp)
    rcases List.mem_cons.mp hc with h1 | h1
    · exact h1 ▸ hexDigitChar_mem _ (by omega)
    · rcases List.mem_cons.mp h1 with h2 | h2
      · exact h2 ▸ hexDigitChar_mem _ (Nat.mod_lt _ (by omega))
      · exact ih (fun y hy => hb y (List.mem_cons_of_mem _ hy)) c h2

/-- `bytes.hex()` doubles the length. -/
theorem bytesHex_length : ∀ b : List Nat, (bytesHex b).length = 2 * b.length := by
  intro b
  induction b with
  | nil => rfl
  | cons x r ih => simp [bytesHex] at ih ⊢; omega

/-- SHA-1 digests are genuine bytes. -/
theorem sha1Bytes_lt (m : List Nat) : ∀ x ∈ sha1Bytes m, x < 256 := by
  intro x hx
  rw [sha1Bytes] at hx
  rcases hfold : (chunks64 (sha1Pad m)).foldl sha1Compress
      (1732584193, 4023233417, 2562383102, 271733878, 3285377520) with ⟨h0, h1, h2, h3, h4⟩
  rw [hfold] at hx
  simp only [List.mem_append] at hx
  rcases hx with (((q | q) | q) | q) | q <;> exact beBytes_lt 4 _ x q

/-- SHA-1 digests are 20 bytes. -/
theorem sha1Bytes_length (m : List Nat) : (sha1Bytes m).length = 20 := by
  rw [sha1Bytes]
  rcases hfold : (chunks64 (sha1Pad m)).foldl sha1Compress
      (1732584193, 4023233417, 2562383102, 271733878, 3285377520) with ⟨h0, h1, h2, h3, h4⟩
  simp [beBytes_length]

/-- Every character of a hex digest is a hex character. -/
theorem sha1Hex_mem (m : List Nat) : ∀ c ∈ sha1Hex m, c ∈ S "0123456789abcdef" :=
  bytesHex_hexmem _ (sha1Bytes_lt m)

/-- Hex digests are nonempty. -/
theorem sha1Hex_ne_nil (m : List Nat) : sha1Hex m ≠ [] := by
  intro h
  have h1 : (sha1Hex m).length = 40 := by
    rw [sha1Hex, bytesHex_length, sha1Bytes_length]
  rw [h] at h1
  cases h1

/-- Hex characters are not whitespace. -/
theorem hexmem_not_ws : ∀ c ∈ S "0123456789abcdef", c.isWhitespace = false := by decide

/-- Hex characters are not the newline. -/
theorem hexmem_ne_nl : ∀ c ∈ S "0123456789abcdef", c ≠ nl := by decide

/-- No hex string carries the `ref: ` marker. -/
theorem not_ref_prefixOf_hex (s : Str) (hmem : ∀ c ∈ s, c ∈ S "0123456789abcdef")
    (hne : s ≠ []) : (S "ref: ").isPrefixOf s = false := by
  obtain ⟨c, s2, rfl⟩ : ∃ c s2, s = c :: s2 := by
    cases s with
    | nil => exact absurd rfl hne
    | cons c s2 => exact ⟨c, s2, rfl⟩
  have hc : ('r' == c) = false := by
    have hmm := hmem c (by simp)
    have hl : S "0123456789abcdef"
        = '0' :: '1' :: '2' :: '3' :: '4' :: '5' :: '6' :: '7' :: '8' :: '9'
          :: 'a' :: 'b' :: 'c' :: 'd' :: 'e' :: 'f' :: [] := by
      decide
    rw [hl] at hmm
    simp only [List.mem_cons, List.not_mem_nil, or_false] at hmm
    rcases hmm with h | h | h | h | h | h | h | h | h | h | h | h | h | h | h | h <;>
      subst h <;> decide
  rw [show S "ref: " = 'r' :: S "ef: " from by decide]
  simp [List.isPrefixOf, hc]

/-- The prefix test in its cons-cons unfolding. -/
theorem isPrefixOf_cons_cons (a b : Char) (l1 l2 : List Char) :
    (a :: l1).isPrefixOf (b :: l2) = (a == b && l1.isPrefixOf l2) := rfl

/-- The empty list is a prefix of anything. -/
theorem nil_isPrefixOf (l : List Char) : ([] : List Char).isPrefixOf l = true := by
  cases l <;> rfl

/-- A list is a prefix of itself extended. -/
theorem isPrefixOf_self_append (l r : List Char) : l.isPrefixOf (l ++ r) = true := by
  induction l with
  | nil => exact nil_isPrefixOf r
  | cons c l2 ih => rw [List.cons_append, isPrefixOf_cons_cons, ih]; simp

/-- A mismatching head refutes the prefix test. -/
theorem isPrefixOf_neq_head (a b : Char) (l1 l2 : List Char) (h : (a == b) = false) :
    (a :: l1).isPrefixOf (b :: l2) = false := by
  rw [isPrefixOf_cons_cons, h]
  rfl


/-- A whitespace-free nonempty string is one whole field. -/
theorem words_foldr_nows : ∀ (t : Str), (∀ c ∈ t, c.isWhitespace = false) → t ≠ [] →
    t.foldr wordsF [] = [t]
  | [], _, hne => absurd rfl hne
  | [c], h, _ => by
    have hc := h c (by simp)
    simp [wordsF, hc]
  | c :: d :: r, h, _ => by
    have hc := h c (by simp)
    have ih := words_foldr_nows (d :: r) (fun x hx => h x (List.mem_cons_of_mem _ hx)) (by simp)
    rw [List.foldr_cons, ih]
    simp [wordsF, hc]

/-- Folding a whitespace-free string into an open empty field fills it. -/
theorem words_foldr_into (u : Str) (X : List Str) (hu : ∀ c ∈ u, c.isWhitespace = false) :
    u.foldr wordsF ([] :: X) = u :: X := by
  induction u with
  | nil => rfl
  | cons c r ih =>
    have hc := hu c (by simp)
    rw [List.foldr_cons, ih (fun x hx => hu x (List.mem_cons_of_mem _ hx))]
    simp [wordsF, hc]

/-- Splitting `word ++ space ++ word` gives the two words. -/
theorem pyWords_word_space_word (u t : Str)
    (hu : ∀ c ∈ u, c.isWhitespace = false) (hune : u ≠ [])
    (ht : ∀ c ∈ t, c.isWhitespace = false) (htne : t ≠ []) :
    pyWords (u ++ ' ' :: t) = [u, t] := by
  unfold pyWords
  rw [List.foldr_append, List.foldr_cons, words_foldr_nows t ht htne]
  have hsp : wordsF ' ' [t] = [] :: [t] := by simp [wordsF]
  rw [hsp, words_foldr_into u _ hu]
  simp [hune, htne]


/-- Splitting rebuilt newline-joined lines whose last line is nonempty. -/
theorem pySplitlines_intercalate (lines : List Str) (hnl : ∀ l ∈ lines, nl ∉ l)
    (hne : lines ≠ []) (hlast : lines.getLast? ≠ some []) :
    pySplitlines (List.intercalate [nl] lines) = lines := by
  unfold pySplitlines
  rw [show ('\n' : Char) = nl from by decide]
  rw [List.splitOn_intercalate lines nl hnl hne]
  simp [hlast]

/-- Splitting rebuilt newline-joined lines whose last line is empty drops
that line. -/
theorem pySplitlines_intercalate_lastnil (lines : List Str) (hnl : ∀ l ∈ lines, nl ∉ l)
    (hne : lines ≠ []) (hlast : lines.getLast? = some []) :
    pySplitlines (List.intercalate [nl] lines) = lines.dropLast := by
  unfold pySplitlines
  rw [show ('\n' : Char) = nl from by decide]
  rw [List.splitOn_intercalate lines nl hnl hne]
  simp [hlast]

/-- `parseLine` on a well-formed tree line. -/
theorem parseLine_tree (res : ParsedCommit) (t : Str)
    (ht : ∀ c ∈ t, c.isWhitespace = false) (htne : t ≠ []) :
    parseLine (res, false) (S "tree " ++ t) = some ({ res with tree := some t }, false) := by
  have htok : pyWords (S "tree " ++ t) = [S "tree", t] := by
    have h1 : S "tree " ++ t = S "tree" ++ ' ' :: t := by
      rw [show S "tree " = S "tree" ++ [' '] from by decide, List.append_assoc]
      rfl
    rw [h1]
    exact pyWords_word_space_word _ _ (by decide) (by decide) ht htne
  simp [parseLine, isPrefixOf_self_append, htok]

/-- `parseLine` on a well-formed parent line. -/
theorem parseLine_parent (res : ParsedCommit) (q : Str)
    (hq : ∀ c ∈ q, c.isWhitespace = false) (hqne : q ≠ []) :
    parseLine (res, false) (S "parent " ++ q) = some ({ res with parent := some q }, false) := by
  have hnt : (S "tree ").isPrefixOf (S "parent " ++ q) = false := by
    rw [show S "tree " = 't' :: S "ree " from by decide,
        show S "parent " = 'p' :: S "arent " from by decide, List.cons_append]
    exact isPrefixOf_neq_head _ _ _ _ (by decide)
  have htok : pyWords (S "parent " ++ q) = [S "parent", q] := by
    have h1 : S "parent " ++ q = S "parent" ++ ' ' :: q := by
      rw [show S "parent " = S "parent" ++ [' '] from by decide, List.append_assoc]
      rfl
    rw [h1]
    exact pyWords_word_space_word _ _ (by decide) (by decide) hq hqne
  simp [parseLine, hnt, isPrefixOf_self_append, htok]

/-- `parseLine` on the author line. -/
theorem parseLine_author (res : ParsedCommit) (al : Str) :
    parseLine (res, false) (S "author " ++ al) = some ({ res with author := some al }, false) := by
  have hnt : (S "tree ").isPrefixOf (S "author " ++ al) = false := by
    rw [show S "tree " = 't' :: S "ree " from by decide,
        show S "author " = 'a' :: S "uthor " from by decide, List.cons_append]
    exact isPrefixOf_neq_head _ _ _ _ (by decide)
  have hnp : (S "parent ").isPrefixOf (S "author " ++ al) = false := by
    rw [show S "parent " = 'p' :: S "arent " from by decide,
        show S "author " = 'a' :: S "uthor " from by decide, List.cons_append]
    exact isPrefixOf_neq_head _ _ _ _ (by decide)
  have hdrop : (S "author " ++ al).drop 7 = al := by
    rw [show (7 : Nat) = (S "author ").length from by decide]
    exact List.drop_left _ _
  simp [parseLine, hnt, hnp, isPrefixOf_self_append, hdrop]

/-- `parseLine` ignores the committer line. -/
theorem parseLine_committer (res : ParsedCommit) (al : Str) :
    parseLine (res, false) (S "committer " ++ al) = some (res, false) := by
  have hnt : (S "tree ").isPrefixOf (S "committer " ++ al) = false := by
    rw [show S "tree " = 't' :: S "ree " from by decide,
        show S "committer " = 'c' :: S "ommitter " from by decide, List.cons_append]
    exact isPrefixOf_neq_head _ _ _ _ (by decide)
  have hnp : (S "parent ").isPrefixOf (S "committer " ++ al) = false := by
    rw [show S "parent " = 'p' :: S "arent " from by decide,
        show S "committer " = 'c' :: S "ommitter " from by decide, List.cons_append]
    exact isPrefixOf_neq_head _ _ _ _ (by decide)
  have hna : (S "author ").isPrefixOf (S "committer " ++ al) = false := by
    rw [show S "author " = 'a' :: S "uthor " from by decide,
        show S "committer " = 'c' :: S "ommitter " from by decide, List.cons_append]
    exact isPrefixOf_neq_head _ _ _ _ (by decide)
  have hne2 : ¬(S "committer " ++ al = []) := by
    rw [show S "committer " = 'c' :: S "ommitter " from by decide, List.cons_append]
    simp
  simp [parseLine, hnt, hnp, hna, hne2]

/-- `parseLine` on the blank separator line. -/
theorem parseLine_blank (res : ParsedCommit) :
    parseLine (res, false) [] = some (res, true) := by
  have hnt : (S "tree ").isPrefixOf ([] : Str) = false := by
    rw [show S "tree " = 't' :: S "ree " from by decide]
    rfl
  have hnp : (S "parent ").isPrefixOf ([] : Str) = false := by
    rw [show S "parent " = 'p' :: S "arent " from by decide]
    rfl
  have hna : (S "author ").isPrefixOf ([] : Str) = false := by
    rw [show S "author " = 'a' :: S "uthor " from by decide]
    rfl
  simp [parseLine, hnt, hnp, hna]

/-- `parseLine` in message mode accumulates. -/
theorem parseLine_msg (res : ParsedCommit) (line : Str) :
    parseLine (res, true) line
      = some ({ res with message := res.message ++ line ++ [nl] }, true) := by
  simp [parseLine, nl]


/-- `nl` is whitespace, so whitespace-free strings contain no `nl`. -/
theorem not_mem_nl_of_nows {s : Str} (h : ∀ c ∈ s, c.isWhitespace = false) : nl ∉ s := by
  intro hm
  have := h nl hm
  rw [show nl.isWhitespace = true from by decide] at this
  cases this

/-- Parsing a commit record assembled by `mkCommitLines` recovers the
tree hash, the parent option and the author line. -/
theorem commitParse_mkCommit (t al msg : Str) (pOpt : Option Str)
    (ht : ∀ c ∈ t, c.isWhitespace = false) (htne : t ≠ [])
    (hpo : ∀ q, pOpt = some q → ((∀ c ∈ q, c.isWhitespace = false) ∧ q ≠ []))
    (hal : nl ∉ al) (hmsg : nl ∉ msg) :
    ∃ res, commitParse (strBytes (List.intercalate [nl] (mkCommitLines t pOpt al msg)))
        = some res ∧ res.tree = some t ∧ res.parent = pOpt ∧ res.author = some al := by
  have hnlt : nl ∉ S "tree " ++ t := by
    intro hm
    rcases List.mem_append.mp hm with h1 | h1
    · exact absurd h1 (by decide)
    · exact not_mem_nl_of_nows ht h1
  have hnla : nl ∉ S "author " ++ al := by
    intro hm
    rcases List.mem_append.mp hm with h1 | h1
    · exact absurd h1 (by decide)
    · exact hal h1
  have hnlc : nl ∉ S "committer " ++ al := by
    intro hm
    rcases List.mem_append.mp hm with h1 | h1
    · exact absurd h1 (by decide)
    · exact hal h1
  have hbind : ∀ {α β : Type} (v : α) (k : α → Option β), (do let x ← some v; k x) = k v :=
    fun _ _ => rfl
  rw [commitParse, bytesStr_strBytes]
  cases pOpt with
  | some q =>
    obtain ⟨hq, hqne⟩ := hpo q rfl
    have hnlq : nl ∉ S "parent " ++ q := by
      intro hm
      rcases List.mem_append.mp hm with h1 | h1
      · exact absurd h1 (by decide)
      · exact not_mem_nl_of_nows hq h1
    have hL : mkCommitLines t (some q) al msg
        = [S "tree " ++ t, S "parent " ++ q, S "author " ++ al, S "committer " ++ al,
           [], msg] := by
      simp [mkCommitLines, hqne]
    rw [hL]
    have hmem : ∀ l ∈ [S "tree " ++ t, S "parent " ++ q, S "author " ++ al,
        S "committer " ++ al, ([] : Str), msg], nl ∉ l := by
      intro l hl
      simp only [List.mem_cons, List.not_mem_nil, or_false] at hl
      rcases hl with rfl | rfl | rfl | rfl | rfl | rfl
      · exact hnlt
      · exact hnlq
      · exact hnla
      · exact hnlc
      · simp
      · exact hmsg
    by_cases hmm : msg = []
    · subst hmm
      have hlines := pySplitlines_intercalate_lastnil _ hmem (by simp)
        (by simp [List.getLast?])
      rw [hlines]
      simp only [List.dropLast]
      rw [List.foldlM_cons, parseLine_tree _ t ht htne]
      rw [hbind]
      rw [List.foldlM_cons, parseLine_parent _ q hq hqne]
      rw [hbind]
      rw [List.foldlM_cons, parseLine_author]
      rw [hbind]
      rw [List.foldlM_cons, parseLine_committer]
      rw [hbind]
      rw [List.foldlM_cons, parseLine_blank]
      rw [hbind]
      exact ⟨_, rfl, rfl, rfl, rfl⟩
    · have hlast : [S "tree " ++ t, S "parent " ++ q, S "author " ++ al,
          S "committer " ++ al, ([] : Str), msg].getLast? ≠ some [] := by
        simp [List.getLast?]
        exact hmm
      have hlines := pySplitlines_intercalate _ hmem (by simp) hlast
      rw [hlines]
      rw [List.foldlM_cons, parseLine_tree _ t ht htne]
      rw [hbind]
      rw [List.foldlM_cons, parseLine_parent _ q hq hqne]
      rw [hbind]
      rw [List.foldlM_cons, parseLine_author]
      rw [hbind]
      rw [List.foldlM_cons, parseLine_committer]
      rw [hbind]
      rw [List.foldlM_cons, parseLine_blank]
      rw [hbind]
      rw [List.foldlM_cons, parseLine_msg]
      rw [hbind]
      exact ⟨_, rfl, rfl, rfl, rfl⟩
  | none =>
    have hL : mkCommitLines t none al msg
        = [S "tree " ++ t, S "author " ++ al, S "committer " ++ al, [], msg] := by
      simp [mkCommitLines]
    rw [hL]
    have hmem : ∀ l ∈ [S "tree " ++ t, S "author " ++ al,
        S "committer " ++ al, ([] : Str), msg], nl ∉ l := by
      intro l hl
      simp only [List.mem_cons, List.not_mem_nil, or_false] at hl
      rcases hl with rfl | rfl | rfl | rfl | rfl
      · exact hnlt
      · exact hnla
      · exact hnlc
      · simp
      · exact hmsg
    by_cases hmm : msg = []
    · subst hmm
      have hlines := pySplitlines_intercalate_lastnil _ hmem (by simp)
        (by simp [List.getLast?])
      rw [hlines]
      simp only [List.dropLast]
      rw [List.foldlM_cons, parseLine_tree _ t ht htne]
      rw [hbind]
      rw [List.foldlM_cons, parseLine_author]
      rw [hbind]
      rw [List.foldlM_cons, parseLine_committer]
      rw [hbind]
      rw [List.foldlM_cons, parseLine_blank]
      rw [hbind]
      exact ⟨_, rfl, rfl, rfl, rfl⟩
    · have hlast : [S "tree " ++ t, S "author " ++ al,
          S "committer " ++ al, ([] : Str), msg].getLast? ≠ some [] := by
        simp [List.getLast?]
        exact hmm
      have hlines := pySplitlines_intercalate _ hmem (by simp) hlast
      rw [hlines]
      rw [List.foldlM_cons, parseLine_tree _ t ht htne]
      rw [hbind]
      rw [List.foldlM_cons, parseLine_author]
      rw [hbind]
      rw [List.foldlM_cons, parseLine_committer]
      rw [hbind]
      rw [List.foldlM_cons, parseLine_blank]
      rw [hbind]
      rw [List.foldlM_cons, parseLine_msg]
      rw [hbind]
      exact ⟨_, rfl, rfl, rfl, rfl⟩


/-- `store_object` returns the object's hash in both branches. -/
theorem store_object_snd (s : List ((Str × Str) × List Nat)) (o : GitObject) :
    (store_object s o).2 = o.hash := by
  rw [store_object]
  cases lookupA s (objectPath o.hash) <;> rfl

/-- Every character of an object hash is a hex character, and the hash is
nonempty. -/
theorem gitHash_hex (o : GitObject) :
    (∀ c ∈ o.hash, c ∈ S "0123456789abcdef") ∧ o.hash ≠ [] := by
  rw [GitObject.hash]
  exact ⟨sha1Hex_mem _, sha1Hex_ne_nil _⟩

/-- Inversion of a successful `commit`. -/
theorem commit_inv (r : Repository) (m a tz : Str) (now : Nat) (r2 : Repository) (h : Str)
    (c : List Nat) (ref parent : Option Str)
    (hrr : read_head_ref r = (ref, parent))
    (hc : commit r m a now tz = some (r2, h, c)) :
    ∃ objs1 th,
      create_tree_from_index r.objects (load_index r) = some (objs1, th) ∧
      c = strBytes (List.intercalate [nl]
            (mkCommitLines th parent (a ++ S " " ++ natStr now ++ S " " ++ tz) m)) ∧
      h = GitObject.hash ⟨S "commit", c⟩ ∧
      r2.index = r.index ∧
      r2.files = (match ref with
        | some ρ => assocSet r.files ρ (h ++ [nl])
        | none => assocSet r.files (S "HEAD") (h ++ [nl])) := by
  rcases hct : create_tree_from_index r.objects (load_index r) with _ | ⟨objs1, th⟩
  · rw [commit, hct] at hc
    cases hc
  · rw [commit, hct, hrr] at hc
    simp only [Option.some.injEq, Prod.mk.injEq] at hc
    obtain ⟨hr2, hh, hcc⟩ := hc
    subst hcc
    subst hh
    subst hr2
    refine ⟨objs1, th, rfl, rfl, ?_, rfl, ?_⟩
    · rw [store_object_snd]
    · cases ref <;> rfl

/-- After a successful commit the repository's current commit is the new
hash and the index is untouched. -/
theorem commit_after (r : Repository) (m a tz : Str) (now : Nat) (r2 : Repository) (h : Str)
    (c : List Nat) (hc : commit r m a now tz = some (r2, h, c)) :
    (read_head_ref r2).2 = some h ∧ r2.index = r.index ∧
    (∀ ch ∈ h, ch ∈ S "0123456789abcdef") ∧ h ≠ [] := by
  rcases hrr : read_head_ref r with ⟨ref, parent⟩
  obtain ⟨objs1, th, hct, hcc, hh, hidx, hfiles⟩ := commit_inv r m a tz now r2 h c ref parent hrr hc
  have hhex : ∀ ch ∈ h, ch ∈ S "0123456789abcdef" := by
    rw [hh]
    exact (gitHash_hex _).1
  have hhne : h ≠ [] := by
    rw [hh]
    exact (gitHash_hex _).2
  have hstrip : pyStrip (h ++ [nl]) = h :=
    pyStrip_nows_nl h (fun ch hch => hexmem_not_ws ch (hhex ch hch)) hhne
  have hnref : (S "ref: ").isPrefixOf h = false := not_ref_prefixOf_hex h hhex hhne
  refine ⟨?_, hidx, hhex, hhne⟩
  cases ref with
  | none =>
    have hfiles2 : r2.files = assocSet r.files (S "HEAD") (h ++ [nl]) := by simpa using hfiles
    rw [read_head_ref, hfiles2, assocSet_lookup_self]
    simp [hstrip, hnref]
  | some ρ =>
    have hfiles2 : r2.files = assocSet r.files ρ (h ++ [nl]) := by simpa using hfiles
    by_cases hρ : ρ = S "HEAD"
    · subst hρ
      rw [read_head_ref, hfiles2, assocSet_lookup_self]
      simp [hstrip, hnref]
    · rcases hlk : lookupA r.files (S "HEAD") with _ | t0
      · rw [read_head_ref, hlk] at hrr
        simp at hrr
      · rcases hpre : (S "ref: ").isPrefixOf (pyStrip t0) with _ | _
        · rw [read_head_ref, hlk] at hrr
          simp [hpre] at hrr
        · rw [read_head_ref, hlk] at hrr
          simp only [hpre, if_true] at hrr
          have hρeq : (pyStrip t0).drop 5 = ρ := by
            rcases hpl : lookupA r.files ((pyStrip t0).drop 5) with _ | cv <;>
              rw [hpl] at hrr <;> simp at hrr <;> exact hrr.1
          rw [read_head_ref, hfiles2, assocSet_lookup_ne _ _ _ _ hρ, hlk]
          simp [hpre, hρeq, assocSet_lookup_self, hstrip]

/-- The tree builder's fuel is positive. -/
theorem treeFuel_pos (index : List (Str × Str)) : 1 ≤ treeFuel index := by
  have haux : ∀ (l : List (Str × Str)) (acc : Nat),
      acc ≤ l.foldl (fun acc e => acc + (pathSegs e.1).length) acc := by
    intro l
    induction l with
    | nil => intro acc; exact le_refl acc
    | cons e rest ih =>
      intro acc
      rw [List.foldl_cons]
      exact le_trans (Nat.le_add_right _ _) (ih _)
  exact haux index 1

/-- At positive fuel, `buildDir` returns a stored tree hash. -/
theorem buildDir_succ_snd (k : Nat) (s : List ((Str × Str) × List Nat))
    (children : List (Str × Node)) :
    ∃ es, (buildDir (k + 1) s children).2 = (treeObj es).hash := by
  rw [buildDir]
  rcases hfold : (pySorted (fun a b => decide (a.1 ≤ b.1)) children).foldl
      (fun (st : List ((Str × Str) × List Nat) × List TreeEntry) c =>
        match c with
        | (name, Node.blob h) => (st.1, st.2 ++ [(S "100644", name, h)])
        | (name, Node.dir sub) =>
          let (s3, hsub) := buildDir k st.1 sub
          (s3, st.2 ++ [(S "40000", name, hsub)]))
      (s, []) with ⟨s2, entries⟩
  rw [hfold]
  exact ⟨entries, store_object_snd _ _⟩

/-- The hash a successful tree build returns is a nonempty hex string. -/
theorem create_tree_snd_shape (s : List ((Str × Str) × List Nat)) (idx : List (Str × Str))
    (o : List ((Str × Str) × List Nat) × Str)
    (hct : create_tree_from_index s idx = some o) :
    (∀ c ∈ o.2, c ∈ S "0123456789abcdef") ∧ o.2 ≠ [] := by
  rw [create_tree_from_index] at hct
  by_cases hidx : idx = []
  · rw [if_pos hidx] at hct
    injection hct with hct
    rw [← hct, store_object_snd]
    exact gitHash_hex _
  · rw [if_neg hidx] at hct
    rcases hroot : buildNested idx with _ | root
    · rw [hroot] at hct
      cases hct
    · rw [hroot] at hct
      simp at hct
      rcases hfe : treeFuel idx with _ | k
      · have := treeFuel_pos idx
        omega
      · obtain ⟨es, hes⟩ := buildDir_succ_snd k s root
        rw [← hct, hfe, hes]
        exact gitHash_hex _


/-- The entry list the build fold collects does not depend on the store it
threads. -/
theorem buildFold_snd_indep (fuel : Nat)
    (ih : ∀ (children : List (Str × Node)) (s s' : List ((Str × Str) × List Nat)),
      (buildDir fuel s children).2 = (buildDir fuel s' children).2) :
    ∀ (l : List (Str × Node)) (es : List TreeEntry)
      (s s' : List ((Str × Str) × List Nat)),
      (l.foldl
        (fun (st : List ((Str × Str) × List Nat) × List TreeEntry) c =>
          match c with
          | (name, Node.blob h) => (st.1, st.2 ++ [(S "100644", name, h)])
          | (name, Node.dir sub) =>
            let (s3, hsub) := buildDir fuel st.1 sub
            (s3, st.2 ++ [(S "40000", name, hsub)])) (s, es)).2
      = (l.foldl
        (fun (st : List ((Str × Str) × List Nat) × List TreeEntry) c =>
          match c with
          | (name, Node.blob h) => (st.1, st.2 ++ [(S "100644", name, h)])
          | (name, Node.dir sub) =>
            let (s3, hsub) := buildDir fuel st.1 sub
            (s3, st.2 ++ [(S "40000", name, hsub)])) (s', es)).2 := by
  intro l
  induction l with
  | nil => intro es s s'; rfl
  | cons c rest ihl =>
    intro es s s'
    rcases c with ⟨name, node⟩
    cases node with
    | blob hsh =>
      rw [List.foldl_cons, List.foldl_cons]
      exact ihl (es ++ [(S "100644", name, hsh)]) s s'
    | dir sub =>
      rw [List.foldl_cons, List.foldl_cons]
      rcases hA : buildDir fuel s sub with ⟨sA, hsubA⟩
      rcases hB : buildDir fuel s' sub with ⟨sB, hsubB⟩
      have hsub := ih sub s s'
      rw [hA, hB] at hsub
      simp only at hsub
      subst hsub
      simp only [hA, hB]
      exact ihl (es ++ [(S "40000", name, hsubA)]) sA sB

/-- The hash `buildDir` returns does not depend on the store it threads. -/
theorem buildDir_snd_indep : ∀ (fuel : Nat) (children : List (Str × Node))
    (s s' : List ((Str × Str) × List Nat)),
    (buildDir fuel s children).2 = (buildDir fuel s' children).2 := by
  intro fuel
  induction fuel with
  | zero => intro children s s'; rfl
  | succ fuel ih =>
    intro children s s'
    rw [buildDir, buildDir]
    rcases hA : (pySorted (fun a b => decide (a.1 ≤ b.1)) children).foldl
        (fun (st : List ((Str × Str) × List Nat) × List TreeEntry) c =>
          match c with
          | (name, Node.blob h) => (st.1, st.2 ++ [(S "100644", name, h)])
          | (name, Node.dir sub) =>
            let (s3, hsub) := buildDir fuel st.1 sub
            (s3, st.2 ++ [(S "40000", name, hsub)])) (s, []) with ⟨sA, esA⟩
    rcases hB : (pySorted (fun a b => decide (a.1 ≤ b.1)) children).foldl
        (fun (st : List ((Str × Str) × List Nat) × List TreeEntry) c =>
          match c with
          | (name, Node.blob h) => (st.1, st.2 ++ [(S "100644", name, h)])
          | (name, Node.dir sub) =>
            let (s3, hsub) := buildDir fuel st.1 sub
            (s3, st.2 ++ [(S "40000", name, hsub)])) (s', []) with ⟨sB, esB⟩
    have hes := buildFold_snd_indep fuel ih (pySorted (fun a b => decide (a.1 ≤ b.1)) children)
      [] s s'
    rw [hA, hB] at hes
    simp only at hes
    subst hes
    rw [hA, hB, store_object_snd, store_object_snd]

/-- The tree hash a successful build returns depends only on the index. -/
theorem create_tree_snd_indep (s s' : List ((Str × Str) × List Nat)) (idx : List (Str × Str))
    {o o' : List ((Str × Str) × List Nat) × Str}
    (h1 : create_tree_from_index s idx = some o)
    (h2 : create_tree_from_index s' idx = some o') : o.2 = o'.2 := by
  rw [create_tree_from_index] at h1 h2
  by_cases hidx : idx = []
  · rw [if_pos hidx] at h1 h2
    injection h1 with h1
    injection h2 with h2
    rw [← h1, ← h2, store_object_snd, store_object_snd]
  · rw [if_neg hidx] at h1 h2
    rcases hroot : buildNested idx with _ | root
    · rw [hroot] at h1
      cases h1
    · rw [hroot] at h1 h2
      simp at h1 h2
      rw [← h1, ← h2]
      exact buildDir_snd_indep _ root s s'

/-- The author/committer payload carries no newline when its inputs carry
none. -/
theorem authorLine_no_nl (a tz : Str) (n : Nat) (ha : nl ∉ a) (htz : nl ∉ tz) :
    nl ∉ a ++ S " " ++ natStr n ++ S " " ++ tz := by
  intro hm
  rcases List.mem_append.mp hm with h1 | h1
  · rcases List.mem_append.mp h1 with h2 | h2
    · rcases List.mem_append.mp h2 with h3 | h3
      · rcases List.mem_append.mp h3 with h4 | h4
        · exact ha h4
        · exact absurd h4 (by decide)
      · have := natStr_digits n nl h3
        exact absurd this (by decide)
    · exact absurd h2 (by decide)
  · exact htz h1

/-- Three commits in sequence: the first commit's hash and the contents of
the second and third commit objects. -/
def commit3 (r : Repository) (m1 m2 m3 a : Str) (n1 n2 n3 : Nat) (tz : Str) :
    Option (Str × List Nat × List Nat) :=
  match commit r m1 a n1 tz with
  | none => none
  | some (r1, h1, _) =>
    match commit r1 m2 a n2 tz with
    | none => none
    | some (r2, _, c2) =>
      match commit r2 m3 a n3 tz with
      | none => none
      | some (_, _, c3) => some (h1, c2, c3)

/-- C6: when three commits in sequence succeed (author, zone and the later
messages newline-free), the second commit's parsed parent field is the
first commit's hash, and the third commit's tree line carries the same
tree hash as the second commit's — the index is not cleared by commit, so
the unmodified index reproduces the tree. -/
theorem C6_commit_chaining (r : Repository) (m1 m2 m3 a : Str) (n1 n2 n3 : Nat) (tz : Str)
    (ha : nl ∉ a) (htz : nl ∉ tz) (hm2 : nl ∉ m2) (hm3 : nl ∉ m3)
    (hsucc : (commit3 r m1 m2 m3 a n1 n2 n3 tz).isSome = true) :
    ∃ h1 c2 c3 d2 d3 t2,
      commit3 r m1 m2 m3 a n1 n2 n3 tz = some (h1, c2, c3) ∧
      commitParse c2 = some d2 ∧ commitParse c3 = some d3 ∧
      d2.parent = some h1 ∧ d2.tree = some t2 ∧ d3.tree = some t2 := by
  rcases hc1 : commit r m1 a n1 tz with _ | ⟨r1, h1, c1⟩
  · simp [commit3, hc1] at hsucc
  rcases hc2 : commit r1 m2 a n2 tz with _ | ⟨r2, h2, c2⟩
  · simp [commit3, hc1, hc2] at hsucc
  rcases hc3 : commit r2 m3 a n3 tz with _ | ⟨r3, h3, c3⟩
  · simp [commit3, hc1, hc2, hc3] at hsucc
  have h3some : commit3 r m1 m2 m3 a n1 n2 n3 tz = some (h1, c2, c3) := by
    simp [commit3, hc1, hc2, hc3]
  obtain ⟨hra1, hidx1, hex1, hne1⟩ := commit_after r m1 a tz n1 r1 h1 c1 hc1
  obtain ⟨hra2, hidx2, hex2, hne2⟩ := commit_after r1 m2 a tz n2 r2 h2 c2 hc2
  rcases hrr1 : read_head_ref r1 with ⟨ref1, par1⟩
  rw [hrr1] at hra1
  simp only at hra1
  subst hra1
  rcases hrr2 : read_head_ref r2 with ⟨ref2, par2⟩
  rw [hrr2] at hra2
  simp only at hra2
  subst hra2
  obtain ⟨objs2, t2, hct2, hc2c, hh2, hidx2i, hfiles2⟩ :=
    commit_inv r1 m2 a tz n2 r2 h2 c2 ref1 (some h1) hrr1 hc2
  obtain ⟨objs3, t3, hct3, hc3c, hh3, hidx3i, hfiles3⟩ :=
    commit_inv r2 m3 a tz n3 r3 h3 c3 ref2 (some h2) hrr2 hc3
  have hidxsame : load_index r2 = load_index r1 := by
    rw [load_index, load_index, hidx2i]
  rw [hidxsame] at hct3
  have ht23 : t2 = t3 := create_tree_snd_indep r1.objects r2.objects (load_index r1) hct2 hct3
  obtain ⟨hhex2, hne2t⟩ := create_tree_snd_shape _ _ _ hct2
  simp only at hhex2 hne2t
  obtain ⟨hhex3, hne3t⟩ := create_tree_snd_shape _ _ _ hct3
  simp only at hhex3 hne3t
  have hal2 := authorLine_no_nl a tz n2 ha htz
  have hal3 := authorLine_no_nl a tz n3 ha htz
  obtain ⟨d2, hd2, hd2t, hd2p, _⟩ :=
    commitParse_mkCommit t2 (a ++ S " " ++ natStr n2 ++ S " " ++ tz) m2 (some h1)
      (fun c hc => hexmem_not_ws c (hhex2 c hc)) hne2t
      (fun q hq => by
        injection hq with hq
        subst hq
        exact ⟨fun c hc => hexmem_not_ws c (hex1 c hc), hne1⟩)
      hal2 hm2
  obtain ⟨d3, hd3, hd3t, hd3p, _⟩ :=
    commitParse_mkCommit t3 (a ++ S " " ++ natStr n3 ++ S " " ++ tz) m3 (some h2)
      (fun c hc => hexmem_not_ws c (hhex3 c hc)) hne3t
      (fun q hq => by
        injection hq with hq
        subst hq
        exact ⟨fun c hc => hexmem_not_ws c (hex2 c hc), hne2⟩)
      hal3 hm3
  rw [← hc2c] at hd2
  rw [← hc3c] at hd3
  exact ⟨h1, c2, c3, d2, d3, t2, h3some, hd2, hd3, hd2p, hd2t, ht23 ▸ hd3t⟩


/-- The repository state `init` leaves behind. -/
def initRepo : Repository :=
  { files := [(S "HEAD", S "ref: refs/heads/master\n")],
    index := some [],
    workdir := [],
    objects := [] }

set_option maxRecDepth 400000 in
/-- C6 witness: three concrete commits on a fresh repository. -/
theorem C6_commit_chaining_witness :
    ∃ h1 c2 c3 d2 d3 t2,
      commit3 initRepo (S "one") (S "two") (S "three") (S "Rex User <user@rex.com>")
          1 2 3 (S "+0000") = some (h1, c2, c3) ∧
      commitParse c2 = some d2 ∧ commitParse c3 = some d3 ∧
      d2.parent = some h1 ∧ d2.tree = some t2 ∧ d3.tree = some t2 :=
  C6_commit_chaining initRepo (S "one") (S "two") (S "three") (S "Rex User <user@rex.com>")
    1 2 3 (S "+0000") (by decide) (by decide) (by decide) (by decide) (by decide)


/-! ### C5: checkout restores exactly the target tree -/

/-- One step of the `restore_tree` entry loop, as a named function. -/
def restoreStep (fuel : Nat) (objs : List ((Str × Str) × List Nat)) (base : List Str) :
    List (List Str × List Nat) × Option RexErr → TreeEntry →
    List (List Str × List Nat) × Option RexErr :=
  fun st e =>
    match st with
    | (w2, some err) => (w2, some err)
    | (w2, none) =>
      match read_object objs e.2.2 with
      | none => (w2, some .readFailed)
      | some child =>
        if e.1 = S "40000" then
          restore_tree fuel objs e.2.2 (base ++ pathSegs e.2.1) w2
        else
          (assocSet w2 (base ++ pathSegs e.2.1) child.content, none)

/-- One step of the `treeFilesT` entry loop, as a named function. -/
def filesStep (fuel : Nat) (objs : List ((Str × Str) × List Nat)) (base : List Str) :
    Option (List (List Str × List Nat)) → TreeEntry →
    Option (List (List Str × List Nat)) :=
  fun acc e =>
    match acc with
    | none => none
    | some fs =>
      match read_object objs e.2.2 with
      | none => none
      | some child =>
        if e.1 = S "40000" then
          (treeFilesT fuel objs e.2.2 (base ++ pathSegs e.2.1)).map (fun fs2 => fs ++ fs2)
        else
          some (fs ++ [(base ++ pathSegs e.2.1, child.content)])

/-- On a tree object, `restore_tree` is the fold of `restoreStep` over the
parsed entries. -/
theorem restore_tree_tree (fuel : Nat) (objs : List ((Str × Str) × List Nat))
    (th : Str) (base : List Str) (w : List (List Str × List Nat))
    (entries : List TreeEntry) (c : List Nat)
    (h : read_object objs th = some (DObj.tree entries c)) :
    restore_tree (fuel + 1) objs th base w =
      entries.foldl (restoreStep fuel objs base) (w, none) := by
  rw [restore_tree, h]
  exact List.foldl_ext _ _ _ (fun st b _ => by
    rcases st with ⟨w2, o⟩
    cases o <;> rfl)

/-- On a tree object, `treeFilesT` is the fold of `filesStep` over the
parsed entries. -/
theorem treeFilesT_tree (fuel : Nat) (objs : List ((Str × Str) × List Nat))
    (th : Str) (base : List Str)
    (entries : List TreeEntry) (c : List Nat)
    (h : read_object objs th = some (DObj.tree entries c)) :
    treeFilesT (fuel + 1) objs th base =
      entries.foldl (filesStep fuel objs base) (some []) := by
  rw [treeFilesT, h]
  exact List.foldl_ext _ _ _ (fun acc b _ => by cases acc <;> rfl)

theorem restoreStep_rfail (fuel : Nat) (objs : List ((Str × Str) × List Nat))
    (base : List Str) (w : List (List Str × List Nat)) (e : TreeEntry)
    (h : read_object objs e.2.2 = none) :
    restoreStep fuel objs base (w, none) e = (w, some RexErr.readFailed) := by
  simp [restoreStep, h]

theorem restoreStep_dir (fuel : Nat) (objs : List ((Str × Str) × List Nat))
    (base : List Str) (w : List (List Str × List Nat)) (e : TreeEntry) (child : DObj)
    (h : read_object objs e.2.2 = some child) (hm : e.1 = S "40000") :
    restoreStep fuel objs base (w, none) e =
      restore_tree fuel objs e.2.2 (base ++ pathSegs e.2.1) w := by
  simp [restoreStep, h, hm]

theorem restoreStep_file (fuel : Nat) (objs : List ((Str × Str) × List Nat))
    (base : List Str) (w : List (List Str × List Nat)) (e : TreeEntry) (child : DObj)
    (h : read_object objs e.2.2 = some child) (hm : ¬ e.1 = S "40000") :
    restoreStep fuel objs base (w, none) e =
      (assocSet w (base ++ pathSegs e.2.1) child.content, none) := by
  simp [restoreStep, h, hm]

theorem filesStep_rfail (fuel : Nat) (objs : List ((Str × Str) × List Nat))
    (base : List Str) (fs : List (List Str × List Nat)) (e : TreeEntry)
    (h : read_object objs e.2.2 = none) :
    filesStep fuel objs base (some fs) e = none := by
  simp [filesStep, h]

theorem filesStep_dir (fuel : Nat) (objs : List ((Str × Str) × List Nat))
    (base : List Str) (fs : List (List Str × List Nat)) (e : TreeEntry) (child : DObj)
    (h : read_object objs e.2.2 = some child) (hm : e.1 = S "40000") :
    filesStep fuel objs base (some fs) e =
      (treeFilesT fuel objs e.2.2 (base ++ pathSegs e.2.1)).map (fun fs2 => fs ++ fs2) := by
  simp [filesStep, h, hm]

theorem filesStep_file (fuel : Nat) (objs : List ((Str × Str) × List Nat))
    (base : List Str) (fs : List (List Str × List Nat)) (e : TreeEntry) (child : DObj)
    (h : read_object objs e.2.2 = some child) (hm : ¬ e.1 = S "40000") :
    filesStep fuel objs base (some fs) e =
      some (fs ++ [(base ++ pathSegs e.2.1, child.content)]) := by
  simp [filesStep, h, hm]

/-- An error state passes through the restore loop unchanged. -/
theorem restoreFold_err (fuel : Nat) (objs : List ((Str × Str) × List Nat)) (base : List Str) :
    ∀ (l : List TreeEntry) (w : List (List Str × List Nat)) (err : RexErr),
      l.foldl (restoreStep fuel objs base) (w, some err) = (w, some err) := by
  intro l
  induction l with
  | nil => intro w err; rfl
  | cons x rest ih => intro w err; rw [List.foldl_cons]; exact ih w err

/-- A failed state passes through the file-collection loop unchanged. -/
theorem filesFold_none (fuel : Nat) (objs : List ((Str × Str) × List Nat)) (base : List Str) :
    ∀ l : List TreeEntry, l.foldl (filesStep fuel objs base) none = none := by
  intro l
  induction l with
  | nil => rfl
  | cons x rest ih => rw [List.foldl_cons]; exact ih

/-- Collected files only accumulate: a nonempty accumulator factors out. -/
theorem filesFold_shift (fuel : Nat) (objs : List ((Str × Str) × List Nat)) (base : List Str) :
    ∀ (l : List TreeEntry) (fs0 : List (List Str × List Nat)),
      l.foldl (filesStep fuel objs base) (some fs0)
        = (l.foldl (filesStep fuel objs base) (some [])).map (fun fs2 => fs0 ++ fs2) := by
  intro l
  induction l with
  | nil => intro fs0; simp
  | cons e rest ihl =>
    intro fs0
    rw [List.foldl_cons, List.foldl_cons]
    cases hro : read_object objs e.2.2 with
    | none =>
      rw [filesStep_rfail fuel objs base fs0 e hro, filesStep_rfail fuel objs base [] e hro,
        filesFold_none fuel objs base rest]
      rfl
    | some child =>
      by_cases hm : e.1 = S "40000"
      · rw [filesStep_dir fuel objs base fs0 e child hro hm,
          filesStep_dir fuel objs base [] e child hro hm]
        cases hsub : treeFilesT fuel objs e.2.2 (base ++ pathSegs e.2.1) with
        | none =>
          rw [Option.map_none', Option.map_none', filesFold_none fuel objs base rest]
          rfl
        | some fs1 =>
          rw [Option.map_some', Option.map_some', ihl (fs0 ++ fs1), ihl ([] ++ fs1)]
          cases rest.foldl (filesStep fuel objs base) (some []) <;>
            simp [List.append_assoc]
      · rw [filesStep_file fuel objs base fs0 e child hro hm,
          filesStep_file fuel objs base [] e child hro hm,
          ihl (fs0 ++ [(base ++ pathSegs e.2.1, child.content)]),
          ihl ([] ++ [(base ++ pathSegs e.2.1, child.content)])]
        cases rest.foldl (filesStep fuel objs base) (some []) <;>
          simp [List.append_assoc]

/-- Inner induction for `restore_files`: over one entry list, a successful
restore fold writes exactly the files the collection fold gathers. -/
theorem restore_files_aux (fuel : Nat) (objs : List ((Str × Str) × List Nat)) (base : List Str)
    (IH : ∀ (th : Str) (base2 : List Str) (w w2 : List (List Str × List Nat)),
      restore_tree fuel objs th base2 w = (w2, none) →
      ∃ fs, treeFilesT fuel objs th base2 = some fs ∧
        w2 = fs.foldl (fun acc p => assocSet acc p.1 p.2) w) :
    ∀ (l : List TreeEntry) (w w2 : List (List Str × List Nat)),
      l.foldl (restoreStep fuel objs base) (w, none) = (w2, none) →
      ∃ fs, l.foldl (filesStep fuel objs base) (some []) = some fs ∧
        w2 = fs.foldl (fun acc p => assocSet acc p.1 p.2) w := by
  intro l
  induction l with
  | nil =>
    intro w w2 h
    exact ⟨[], rfl, (congrArg Prod.fst h).symm⟩
  | cons e rest ihl =>
    intro w w2 h
    rw [List.foldl_cons] at h
    cases hro : read_object objs e.2.2 with
    | none =>
      rw [restoreStep_rfail fuel objs base w e hro,
        restoreFold_err fuel objs base rest w RexErr.readFailed] at h
      simp at h
    | some child =>
      by_cases hm : e.1 = S "40000"
      · rw [restoreStep_dir fuel objs base w e child hro hm] at h
        rcases hsub : restore_tree fuel objs e.2.2 (base ++ pathSegs e.2.1) w with ⟨w1, errOpt⟩
        rw [hsub] at h
        cases errOpt with
        | some err =>
          rw [restoreFold_err fuel objs base rest w1 err] at h
          simp at h
        | none =>
          obtain ⟨fs1, hfs1, hw1⟩ := IH e.2.2 (base ++ pathSegs e.2.1) w w1 hsub
          obtain ⟨fs2, hfs2, hw2⟩ := ihl w1 w2 h
          refine ⟨fs1 ++ fs2, ?_, ?_⟩
          · rw [List.foldl_cons]
            have hstep : filesStep fuel objs base (some []) e = some fs1 := by
              rw [filesStep_dir fuel objs base [] e child hro hm, hfs1]
              rfl
            rw [hstep, filesFold_shift fuel objs base rest fs1, hfs2]
            rfl
          · rw [List.foldl_append, ← hw1, ← hw2]
      · rw [restoreStep_file fuel objs base w e child hro hm] at h
        obtain ⟨fs2, hfs2, hw2⟩ :=
          ihl (assocSet w (base ++ pathSegs e.2.1) child.content) w2 h
        refine ⟨(base ++ pathSegs e.2.1, child.content) :: fs2, ?_, ?_⟩
        · rw [List.foldl_cons]
          have hstep : filesStep fuel objs base (some []) e
              = some [(base ++ pathSegs e.2.1, child.content)] := by
            rw [filesStep_file fuel objs base [] e child hro hm]
            rfl
          rw [hstep,
            filesFold_shift fuel objs base rest [(base ++ pathSegs e.2.1, child.content)], hfs2]
          rfl
        · rw [List.foldl_cons]
          exact hw2

/-- A successful `restore_tree` run writes exactly the files `treeFilesT`
collects, in order, over the starting working directory. -/
theorem restore_files (objs : List ((Str × Str) × List Nat)) :
    ∀ (fuel : Nat) (th : Str) (base : List Str) (w w2 : List (List Str × List Nat)),
      restore_tree fuel objs th base w = (w2, none) →
      ∃ fs, treeFilesT fuel objs th base = some fs ∧
        w2 = fs.foldl (fun acc p => assocSet acc p.1 p.2) w := by
  intro fuel
  induction fuel with
  | zero =>
    intro th base w w2 h
    simp [restore_tree] at h
  | succ fuel IH =>
    intro th base w w2 h
    cases hro : read_object objs th with
    | none => rw [restore_tree, hro] at h; simp at h
    | some obj =>
      cases obj with
      | blob ct => rw [restore_tree, hro] at h; simp at h
      | commit ct => rw [restore_tree, hro] at h; simp at h
      | other k ct => rw [restore_tree, hro] at h; simp at h
      | tree entries c =>
        rw [restore_tree_tree fuel objs th base w entries c hro] at h
        rw [treeFilesT_tree fuel objs th base entries c hro]
        exact restore_files_aux fuel objs base IH entries w w2 h

/-- A successful `checkout_restore` leaves the working directory holding
exactly the files of the target commit tree. -/
theorem checkout_restore_files (r : Repository) (target : Str) (fuel : Nat) (r2 : Repository)
    (h : checkout_restore r target fuel = (r2, none)) :
    ∃ th fs, read_commit_tree r.objects target = some th ∧
      treeFilesT fuel r.objects th [] = some fs ∧
      r2.workdir = fs.foldl (fun acc p => assocSet acc p.1 p.2) [] := by
  simp only [checkout_restore] at h
  cases hct : read_commit_tree r.objects target with
  | none => rw [hct] at h; simp at h
  | some th =>
    rw [hct] at h
    rcases hres : restore_tree fuel r.objects th [] [] with ⟨w, errOpt⟩
    cases errOpt with
    | some err => simp [hres] at h
    | none =>
      obtain ⟨fs, hfs, hw⟩ := restore_files r.objects fuel th [] [] w hres
      refine ⟨th, fs, rfl, hfs, ?_⟩
      simp [hres] at h
      subst h
      exact hw

/-- The commit hash a non-creating successful checkout resolves: the
stripped branch-file text when `refs/heads/<name>` exists, otherwise the
name itself when it is hash-shaped. -/
def checkoutTarget (r : Repository) (name : Str) : Option Str :=
  match lookupA r.files (S "refs/heads/" ++ name) with
  | some txt => some (pyStrip txt)
  | none => if isHash name then some name else none

/-- C5: after a checkout of an existing branch, or of a hash-shaped name,
that completes without error, the working directory holds exactly the
files recorded in the target commit tree: the tree line of the resolved
commit names a readable tree, the collection of that tree succeeds, and
the final working directory is that file list written over the emptied
directory. -/
theorem C5_checkout_exact_tree (r : Repository) (name : Str) (create : Bool) (fuel : Nat)
    (r2 : Repository) (target : Str)
    (htgt : checkoutTarget r name = some target)
    (hck : checkout r name create fuel = (r2, none)) :
    ∃ th fs, read_commit_tree r.objects target = some th ∧
      treeFilesT fuel r.objects th [] = some fs ∧
      r2.workdir = fs.foldl (fun acc p => assocSet acc p.1 p.2) [] := by
  rw [checkoutTarget] at htgt
  rw [checkout] at hck
  cases hlk : lookupA r.files (S "refs/heads/" ++ name) with
  | some txt =>
    rw [hlk] at htgt
    simp only [hlk] at hck
    simp at htgt
    rw [← htgt]
    exact checkout_restore_files
      { r with files := assocSet r.files (S "HEAD") (S "ref: refs/heads/" ++ name ++ [nl]) }
      (pyStrip txt) fuel r2 hck
  | none =>
    rw [hlk] at htgt
    simp only [hlk] at hck
    by_cases hh : isHash name
    · rw [if_pos hh] at htgt
      simp [hh] at hck
      simp at htgt
      rw [← htgt]
      exact checkout_restore_files
        { r with files := assocSet r.files (S "HEAD") (name ++ [nl]) }
        name fuel r2 hck
    · rw [if_neg hh] at htgt
      simp at htgt

/-- A store with one commit whose tree holds one blob, reachable from the
`master` branch file. -/
def coObjs5 : List ((Str × Str) × List Nat) :=
  [((S "aa", S "bbcc"),
      GitObject.serialize ⟨S "commit", strBytes (S "tree ffee01") ++ [10, 10] ++ strBytes (S "msg")⟩),
   ((S "ff", S "ee01"),
      GitObject.serialize ⟨S "tree", strBytes (S "100644 f.txt") ++ [0, 0, 17]⟩),
   ((S "00", S "11"),
      GitObject.serialize ⟨S "blob", strBytes (S "hi")⟩)]

/-- A repository on branch `master` pointing at that commit, with junk in
the working directory. -/
def coRepo5 : Repository :=
  { objects := coObjs5,
    files := [(S "HEAD", S "ref: refs/heads/master" ++ [nl]),
              (S "refs/heads/master", S "aabbcc" ++ [nl])],
    index := some [],
    workdir := [([S "junk"], [1])] }

theorem C5_checkout_exact_tree_witness :
    ∃ th fs, read_commit_tree coRepo5.objects (S "aabbcc") = some th ∧
      treeFilesT 3 coRepo5.objects th [] = some fs ∧
      (checkout coRepo5 (S "master") false 3).1.workdir
        = fs.foldl (fun acc p => assocSet acc p.1 p.2) [] :=
  C5_checkout_exact_tree coRepo5 (S "master") false 3
    (checkout coRepo5 (S "master") false 3).1 (S "aabbcc") (by decide) rfl

end Rex
